import Mathlib

/-!
S3 exporter: SFM files to JSON Lines batches.

A shallow embedding of the Go package `s3-exporter` (`exporter/export.go`,
`exporter/utils.go`, `src/compression.go`, `main.go`) and theorems about it.

Modelling conventions.

* A Go `string` is a `GoString`, the list of its Unicode code points.  File
  contents are valid UTF-8 text, so the byte-wise library functions used by the
  program (`strings.Contains`, `strings.Split` on an ASCII separator,
  `strings.TrimSpace`, ...) act on code points exactly as they act on bytes.
* `bufio.Scanner` with the default split function and the default buffer is
  `scanTokens`: it yields the lines up to the first line of `maxScanTokenSize`
  bytes or more and then stops with an error (`scanner.Err()` is `ErrTooLong`);
  `CheckIfExported`, `readColumnNames` and `ConvertAndUpload` return that error
  as the code does.  `ScanLines` is the split function alone, the lines of a
  text whatever their length.
* The operating system is taken to work: `os.Open`, `os.Create`, the reads of
  the bytes of a file, `WriteString` and `Flush` succeed.  The one failure a
  scan of a readable file can end in, a line too long for the buffer of the
  scanner, is modelled.  The writer is flushed only by `Flush`; the
  flush `bufio` makes by itself when its buffer is full moves the same bytes
  earlier and cannot be seen at the points where the file is read.
* The two collaborators that the program treats as fallible, the gzip codec
  used by `CompressFile` and the object-store upload behind `UploadToS3`, are
  oracles of the environment `Env`; their failures are modelled.
* The local file system is a partial map from paths to file data.
-/

namespace Exporter

/-- A Go string, as the list of its code points. -/
abbrev GoString := List Char

/-! ## The `strings` package -/

/-- Go `strings.HasPrefix`. -/
def HasPrefix (s pre : GoString) : Bool := pre.isPrefixOf s

/-- Go `strings.HasSuffix`. -/
def HasSuffix (s suf : GoString) : Bool := suf.isSuffixOf s

/-- Go `strings.Contains`: `sub` occurs in `s` as a contiguous run. -/
def Contains : GoString → GoString → Bool
  | [], sub => sub.isEmpty
  | c :: cs, sub => sub.isPrefixOf (c :: cs) || Contains cs sub

/-- Go `strings.Replace(s, old, new, 1)`: the leftmost occurrence of `old` is
replaced by `new`; `s` is returned as it is when `old` does not occur. -/
def ReplaceFirst : GoString → GoString → GoString → GoString
  | [], old, new => if old.isEmpty then new else []
  | c :: cs, old, new =>
    if old.isPrefixOf (c :: cs) then new ++ (c :: cs).drop old.length
    else c :: ReplaceFirst cs old new

/-- Go `strings.Split(s, sep)` for a one-character separator: every segment
between separators, empty ones included; never the empty list. -/
def Split (sep : Char) : GoString → List GoString
  | [] => [[]]
  | c :: cs =>
    if c = sep then [] :: Split sep cs
    else
      match Split sep cs with
      | [] => [[c]]
      | seg :: segs => (c :: seg) :: segs

/-- Go `strings.Join(parts, sep)`. -/
def Join (sep : GoString) : List GoString → GoString
  | [] => []
  | [p] => p
  | p :: q :: ps => p ++ sep ++ Join sep (q :: ps)

/-- Go `unicode.IsSpace`: the code points with the White_Space property. -/
def isSpace (c : Char) : Bool :=
  let n := c.toNat
  (9 ≤ n && n ≤ 13) || n == 32 || n == 133 || n == 160 || n == 5760 ||
  (8192 ≤ n && n ≤ 8202) || n == 8232 || n == 8233 || n == 8239 ||
  n == 8287 || n == 12288

/-- Go `strings.TrimSpace`: leading and trailing white space removed. -/
def TrimSpace (s : GoString) : GoString :=
  ((s.dropWhile isSpace).reverse.dropWhile isSpace).reverse

/-- Go `strings.TrimPrefix`. -/
def TrimPrefix (s pre : GoString) : GoString :=
  if pre.isPrefixOf s then s.drop pre.length else s

/-- Go `strings.TrimSuffix`. -/
def TrimSuffix (s suf : GoString) : GoString :=
  if suf.isSuffixOf s then s.take (s.length - suf.length) else s

/-! ## `bufio.Scanner` with `bufio.ScanLines` -/

/-- The `dropCR` helper of `bufio`: one trailing carriage return is dropped. -/
def dropCR (tok : GoString) : GoString :=
  if tok.getLast? = some '\r' then tok.dropLast else tok

/-- The split function `bufio.ScanLines` applied along a text: `cur` is the
part of the current line read so far.  A line ends at a line feed; at the end
of the text a last line is yielded only when some data is left. -/
def scanFrom : GoString → GoString → List GoString
  | cur, [] => if cur.isEmpty then [] else [dropCR cur]
  | cur, c :: cs =>
    if c = '\n' then dropCR cur :: scanFrom [] cs else scanFrom (cur ++ [c]) cs

/-- The lines of a text, of any length, as the split function `bufio.ScanLines`
cuts them.  This is the split function alone, not a `bufio.Scanner`: the
scanner of the program, with the limit of its buffer, is `scanTokens` below.
`ScanLines` names the lines of a file or of an artifact as a text. -/
def ScanLines (data : GoString) : List GoString := scanFrom [] data

/-- The length in bytes of the UTF-8 encoding of a code point. -/
def runeLen (c : Char) : Nat :=
  if c.toNat < 128 then 1 else if c.toNat < 2048 then 2
  else if c.toNat < 65536 then 3 else 4

/-- The length in bytes of a Go string. -/
def byteLen (s : GoString) : Nat := (s.map runeLen).sum

/-- Go `bufio.MaxScanTokenSize`: the size the buffer of a `bufio.Scanner` may
grow to. -/
def maxScanTokenSize : Nat := 65536

/-- A `bufio.Scanner` with the split function `bufio.ScanLines` run to its
end: the lines `scanner.Scan()` / `scanner.Text()` yield, and whether
`scanner.Err()` is an error at the end.  `cur` is the part of the current line
held in the buffer.  A line of `maxScanTokenSize` bytes or more does not fit
the buffer with its line feed: the scanner stops there with `ErrTooLong` and
yields nothing more. -/
def scanTokens : GoString → GoString → List GoString × Bool
  | cur, [] =>
    if cur.isEmpty then ([], false)
    else if maxScanTokenSize ≤ byteLen cur then ([], true)
    else ([dropCR cur], false)
  | cur, c :: cs =>
    if c = '\n' then
      if maxScanTokenSize ≤ byteLen cur then ([], true)
      else (dropCR cur :: (scanTokens [] cs).1, (scanTokens [] cs).2)
    else scanTokens (cur ++ [c]) cs

/-- The lines a scanner yields for a file content. -/
def scannedLines (data : GoString) : List GoString := (scanTokens [] data).1

/-- Whether `scanner.Err()` is an error after the scan of a file content. -/
def scanFails (data : GoString) : Bool := (scanTokens [] data).2

/-- The errors of the functions that only read the SFM file: the error of the
scanner, and "column names not found in file header". -/
inductive ReadError where
  | scanning
  | notFound
  deriving DecidableEq, Repr

/-- What a function that only reads the SFM file returns: a value and a nil
error, or an error. -/
inductive Result (α : Type) where
  | ok (value : α)
  | error (e : ReadError)
  deriving DecidableEq, Repr

/-! ## Export state: `CheckIfExported` and `MarkAsExported` -/

/-- The sentinel key looked for by `CheckIfExported`. -/
def sentinelKey : GoString := "jsonS3Exported".toList

/-- The literal `jsonS3Exported:true`. -/
def sentinelTrue : GoString := "jsonS3Exported:true".toList

/-- The literal `jsonS3Exported: true`. -/
def sentinelTrueSp : GoString := "jsonS3Exported: true".toList

/-- The literal `jsonS3Exported:false`. -/
def sentinelFalse : GoString := "jsonS3Exported:false".toList

/-- The literal `jsonS3Exported: false`. -/
def sentinelFalseSp : GoString := "jsonS3Exported: false".toList

/-- The test `CheckIfExported` applies to one scanned line. -/
def lineMarksExported (line : GoString) : Bool :=
  Contains line sentinelKey &&
    (Contains line sentinelTrue || Contains line sentinelTrueSp)

/-- Go `CheckIfExported` on the content of the SFM file: the scan stops with
`true` at the first line that carries the flag with value true; when no line
the scanner yields does, the error of the scanner is returned if there is one,
and `false` otherwise. -/
def CheckIfExported (content : GoString) : Result Bool :=
  if (scannedLines content).any lineMarksExported then .ok true
  else if scanFails content then .error .scanning
  else .ok false

/-- The test for an anchor line in `MarkAsExported`. -/
def isAnchor (s : GoString) : Bool :=
  Contains s ".sfm".toList || Contains s "segmeta.json".toList

/-- The loop of `MarkAsExported` over the lines: the first anchor line gets the
flag appended after a line feed, then the loop breaks. -/
def insertFlag : List GoString → List GoString
  | [] => []
  | line :: rest =>
    if isAnchor line then (line ++ "\njsonS3Exported:true".toList) :: rest
    else line :: insertFlag rest

/-- The content `MarkAsExported` writes back to the SFM file. -/
def MarkAsExported (content : GoString) : GoString :=
  if Contains content sentinelFalse then
    ReplaceFirst content sentinelFalse sentinelTrue
  else if Contains content sentinelFalseSp then
    ReplaceFirst content sentinelFalseSp sentinelTrueSp
  else if isAnchor content then
    Join ['\n'] (insertFlag (Split '\n' content))
  else content

/-! ## `path/filepath` and `fmt` -/

/-- Go `filepath.Base` (slash-separated paths): the last element of the path,
trailing slashes removed first. -/
def filepathBase (path : GoString) : GoString :=
  if path.isEmpty then ['.']
  else
    let stripped := (path.reverse.dropWhile (· == '/')).reverse
    let last := (stripped.reverse.takeWhile (· != '/')).reverse
    if last.isEmpty then ['/'] else last

/-- Go `filepath.Ext`: the suffix of the last element that starts at its last
dot, empty when the element has no dot. -/
def filepathExt (path : GoString) : GoString :=
  let lastRev := path.reverse.takeWhile (· != '/')
  if lastRev.contains '.' then '.' :: (lastRev.takeWhile (· != '.')).reverse
  else []

/-- The decimal digits `%d` prints for a non-negative integer. -/
def itoa (n : Nat) : GoString := Nat.toDigits 10 n

/-! ## `encoding/json` on a `map[string]string` -/

/-- A Go `map[string]string`, as the list of its entries; keys are distinct. -/
abbrev GoMap := List (GoString × GoString)

/-- The assignment `m[k] = v`. -/
def mapSet : GoMap → GoString → GoString → GoMap
  | [], k, v => [(k, v)]
  | (k0, v0) :: rest, k, v =>
    if k0 = k then (k0, v) :: rest else (k0, v0) :: mapSet rest k v

/-- The order `encoding/json` sorts map keys by: `a ≤ b` as Go strings. -/
def strLE : GoString → GoString → Bool
  | [], _ => true
  | _ :: _, [] => false
  | a :: as, b :: bs =>
    decide (a.toNat < b.toNat) || (decide (a.toNat = b.toNat) && strLE as bs)

/-- The order on map entries: by key. -/
def entryLE (x y : GoString × GoString) : Prop := strLE x.1 y.1 = true

instance : DecidableRel entryLE := fun x y =>
  inferInstanceAs (Decidable (strLE x.1 y.1 = true))

/-- The entries of a map in the order `json.Marshal` writes them. -/
def marshalMembers (m : GoMap) : GoMap := m.insertionSort entryLE

/-- The lower-case hexadecimal digit of a value below 16. -/
def hexDigit (n : Nat) : Char := "0123456789abcdef".toList.getD n '0'

/-- The double quote. -/
def dquote : Char := Char.ofNat 34

/-- The backslash. -/
def bslash : Char := Char.ofNat 92

/-- What `encoding/json` writes for one code point inside a string, with HTML
escaping on (the default of `json.Marshal`). -/
def escapeChar (c : Char) : GoString :=
  let n := c.toNat
  if n < 128 then
    if 32 ≤ n && n != 34 && n != 92 && n != 60 && n != 62 && n != 38 then [c]
    else if n = 34 || n = 92 then [bslash, c]
    else if n = 8 then [bslash, 'b']
    else if n = 12 then [bslash, 'f']
    else if n = 10 then [bslash, 'n']
    else if n = 13 then [bslash, 'r']
    else if n = 9 then [bslash, 't']
    else [bslash, 'u', '0', '0', hexDigit (n / 16), hexDigit (n % 16)]
  else if n = 8232 || n = 8233 then
    [bslash, 'u', '2', '0', '2', hexDigit (n % 16)]
  else [c]

/-- A Go string as a JSON string literal. -/
def encodeString (s : GoString) : GoString :=
  dquote :: (s.map escapeChar).flatten ++ [dquote]

/-- One member of a JSON object: `"key":"value"`. -/
def encodeMember (kv : GoString × GoString) : GoString :=
  encodeString kv.1 ++ ':' :: encodeString kv.2

/-- Go `json.Marshal` of a `map[string]string`: the members sorted by key,
separated by commas, between braces. -/
def Marshal (m : GoMap) : GoString :=
  '\x7b' :: Join [','] ((marshalMembers m).map encodeMember) ++ ['\x7d']

/-! ## The record transform of `ConvertAndUpload` -/

/-- The comment marker test and the blank test that skip a line. -/
def isSkipped (line : GoString) : Bool :=
  HasPrefix line ['#'] || (TrimSpace line).isEmpty

/-- The map filled by `jsonRecord[columnNames[i]] = strings.TrimSpace(value)`
over the fields of a record, in field order. -/
def buildRecord (columnNames : List GoString) (record : List GoString) : GoMap :=
  (columnNames.zip record).foldl (fun m kv => mapSet m kv.1 (TrimSpace kv.2)) []

/-- The string `ConvertAndUpload` writes for one scanned line, `none` when the
line is skipped: a comment, a blank line, or a field count that differs from
the number of columns. -/
def convertLine (columnNames : List GoString) (line : GoString) : Option GoString :=
  if isSkipped line then none
  else
    let record := Split ',' line
    if record.length ≠ columnNames.length then none
    else some (Marshal (buildRecord columnNames record) ++ ['\n'])

/-- The header search of `readColumnNames` over the scanned lines. -/
def findHeader : List GoString → Option (List GoString)
  | [] => none
  | line :: rest =>
    if HasPrefix line ['#'] && Contains line [','] then
      some ((Split ',' (TrimPrefix line ['#'])).map TrimSpace)
    else findHeader rest

/-- Go `readColumnNames` on the content of the SFM file: the column names of
the first header line the scanner yields; when it yields none, the error of the
scanner if there is one, and "column names not found in file header"
otherwise. -/
def readColumnNames (content : GoString) : Result (List GoString) :=
  match findHeader (scannedLines content) with
  | some columnNames => .ok columnNames
  | none => if scanFails content then .error .scanning else .error .notFound

/-- The suffix `.gz`. -/
def gzSuffix : GoString := ".gz".toList

/-- The suffix `.json`. -/
def jsonSuffix : GoString := ".json".toList

/-! ## The local file system and the two collaborators -/

/-- What a local file holds: text, the gzip stream of another file's data
(`size` bytes long), or the remains of a copy that failed. -/
inductive FileData where
  | text (content : GoString)
  | gzip (size : Nat) (source : FileData)
  | broken
  deriving DecidableEq, Repr

/-- The size `os.Stat` reports for a file. -/
def FileData.size : FileData → Nat
  | .text content => byteLen content
  | .gzip size _ => size
  | .broken => 0

/-- The text a file stands for: its content, read through any gzip layers. -/
def FileData.plain : FileData → GoString
  | .text content => content
  | .gzip _ source => source.plain
  | .broken => []

/-- The local file system: the data of every existing path. -/
abbrev FS := GoString → Option FileData

/-- The file system after `path` is (re)written with `data`. -/
def FS.write (fs : FS) (path : GoString) (data : FileData) : FS :=
  fun q => if q = path then some data else fs q

/-- The file system after `os.Remove(path)`. -/
def FS.remove (fs : FS) (path : GoString) : FS :=
  fun q => if q = path then none else fs q

/-- The environment of a run: the gzip codec (the size of the compressed
stream for the file at a path, `none` when the copy fails) and the object
store (whether the upload of the data under a key is acknowledged). -/
structure Env where
  gzip : GoString → FileData → Option Nat
  putObject : GoString → FileData → Bool

/-- The errors `ConvertAndUpload` returns. -/
inductive ExportError where
  | columnNames
  | reading
  | compressing
  | uploading
  deriving DecidableEq, Repr

/-- Go `CompressFile`: the file at `filePath` is gzipped to `filePath.gz`; when
the compressed file is not smaller it is removed and `filePath` is returned,
otherwise the new path is returned.  `none` is an error return. -/
def CompressFile (env : Env) (fs : FS) (filePath : GoString) :
    FS × Option GoString :=
  match fs filePath with
  | none => (fs, none)
  | some source =>
    let destPath := filePath ++ gzSuffix
    match env.gzip filePath source with
    | none => (fs.write destPath .broken, none)
    | some z =>
      let fs1 := fs.write destPath (.gzip z source)
      if z ≥ source.size then (fs1.remove destPath, some filePath)
      else (fs1, some destPath)

/-- Go `UploadToS3`: the local file is opened and handed to the object store. -/
def UploadToS3 (env : Env) (fs : FS) (filePath s3Path : GoString) : Bool :=
  match fs filePath with
  | none => false
  | some data => env.putObject s3Path data

/-- The `export` section of the configuration. -/
structure Config where
  BatchSize : Int
  Compression : Bool
  TempDir : GoString

/-- The calls a run makes to the collaborators, in order, with their outcome. -/
inductive Event where
  | compressed (filePath : GoString) (ok : Bool)
  | uploaded (filePath s3Path : GoString) (data : FileData) (ok : Bool)
  deriving DecidableEq, Repr

/-- Whether the call succeeded. -/
def Event.ok : Event → Bool
  | .compressed _ ok => ok
  | .uploaded _ _ _ ok => ok

/-- The state of the loop of `ConvertAndUpload`. -/
structure State where
  fs : FS
  jsonFileName : GoString
  pending : GoString
  recordCount : Nat
  batchCount : Nat
  events : List Event

/-- Go `writer.WriteString`: the data goes to the buffer of the writer. -/
def State.writeString (st : State) (data : GoString) : State :=
  { st with pending := st.pending ++ data }

/-- Go `writer.Flush`: the buffer is appended to the file on disk. -/
def State.flush (st : State) : State :=
  { st with
    fs := st.fs.write st.jsonFileName
      (.text (((st.fs st.jsonFileName).map FileData.plain).getD [] ++ st.pending))
    pending := [] }

/-- The key `{baseFileName}/batch-{batchCount}.json` of a batch. -/
def batchKey (baseFileName : GoString) (batchCount : Nat) : GoString :=
  baseFileName ++ "/batch-".toList ++ itoa batchCount ++ jsonSuffix

/-- The key a batch is uploaded under: `batchKey`, with `.gz` appended when
the file to upload ends in `.gz`. -/
def s3PathFor (baseFileName : GoString) (batchCount : Nat) (finalFile : GoString) :
    GoString :=
  let s3Path := batchKey baseFileName batchCount
  if HasSuffix finalFile gzSuffix then s3Path ++ gzSuffix else s3Path

/-- The step "compress if needed": with compression configured the current
file goes through `CompressFile` and the call is recorded; the result is the
file to upload, `none` when `CompressFile` returned an error. -/
def compressStep (env : Env) (config : Config) (st : State) : State × Option GoString :=
  if config.Compression then
    ({ st with
        fs := (CompressFile env st.fs st.jsonFileName).1
        events := st.events ++
          [.compressed st.jsonFileName (CompressFile env st.fs st.jsonFileName).2.isSome] },
      (CompressFile env st.fs st.jsonFileName).2)
  else (st, some st.jsonFileName)

/-- The step "upload to S3" for the file to upload: the key is formed, the
upload is made and recorded, and a failed upload is the error `uploading`. -/
def uploadStep (env : Env) (baseFileName : GoString) (st : State) (finalFile : GoString) :
    State × Option ExportError :=
  let s3Path := s3PathFor baseFileName st.batchCount finalFile
  let ok := UploadToS3 env st.fs finalFile s3Path
  ({ st with events := st.events ++
      [.uploaded finalFile s3Path ((st.fs finalFile).getD .broken) ok] },
    if ok then none else some .uploading)

/-- The finalize sequence shared by the rotation and the end of the stream:
compress the current file when configured, then upload it.  The error, if any,
is returned with the state reached. -/
def finalizeBatch (env : Env) (config : Config) (baseFileName : GoString)
    (st : State) : State × Option ExportError :=
  match compressStep env config st with
  | (st1, none) => (st1, some .compressing)
  | (st1, some finalFile) => uploadStep env baseFileName st1 finalFile

/-- The name of the temporary file of batch `batchCount` (`batchCount > 0`). -/
def batchFileName (config : Config) (baseFileName timeStamp : GoString)
    (batchCount : Nat) : GoString :=
  config.TempDir ++ '/' :: baseFileName ++ '-' :: timeStamp ++
    "-batch-".toList ++ itoa batchCount ++ jsonSuffix

/-- The start of a new batch after an upload: the counters move on and a new
temporary file is created with a new writer. -/
def State.rotate (st : State) (config : Config) (baseFileName timeStamp : GoString) :
    State :=
  let name := batchFileName config baseFileName timeStamp (st.batchCount + 1)
  { st with
    batchCount := st.batchCount + 1
    recordCount := 0
    jsonFileName := name
    fs := st.fs.write name (.text [])
    pending := [] }

/-- One record goes to the current file: the line is written, the record is
counted, and the writer is flushed at every thousandth record of the batch. -/
def State.addRecord (st : State) (jsonLine : GoString) : State :=
  let st1 := st.writeString jsonLine
  let st2 := { st1 with recordCount := st1.recordCount + 1 }
  if st2.recordCount % 1000 = 0 then st2.flush else st2

/-- The scan loop of `ConvertAndUpload` over the lines still to read. -/
def processLines (env : Env) (config : Config) (baseFileName timeStamp : GoString)
    (columnNames : List GoString) : List GoString → State → State × Option ExportError
  | [], st => (st, none)
  | line :: rest, st =>
    match convertLine columnNames line with
    | none => processLines env config baseFileName timeStamp columnNames rest st
    | some jsonLine =>
      let st1 := st.addRecord jsonLine
      if config.BatchSize > 0 ∧ (st1.recordCount : Int) ≥ config.BatchSize then
        match finalizeBatch env config baseFileName st1.flush with
        | (st2, some err) => (st2, some err)
        | (st2, none) =>
          processLines env config baseFileName timeStamp columnNames rest
            (st2.rotate config baseFileName timeStamp)
      else processLines env config baseFileName timeStamp columnNames rest st1

/-- What a run of `ConvertAndUpload` leaves behind. -/
structure Run where
  fs : FS
  events : List Event
  err : Option ExportError

/-- The base name of the SFM file with its extension removed. -/
def baseFileNameOf (sfmFile : GoString) : GoString :=
  TrimSuffix (filepathBase sfmFile) (filepathExt (filepathBase sfmFile))

/-- The state in which the scan loop starts: the first temporary file is
created, empty, and both counters are zero. -/
def startState (config : Config) (fs : FS) (sfmFile timeStamp : GoString) : State :=
  let jsonFileName := config.TempDir ++ '/' :: baseFileNameOf sfmFile ++ '-' :: timeStamp ++
    jsonSuffix
  { fs := fs.write jsonFileName (.text []), jsonFileName := jsonFileName, pending := [],
    recordCount := 0, batchCount := 0, events := [] }

/-- The scan loop of `ConvertAndUpload` run from the start state. -/
def scanLoop (env : Env) (config : Config) (fs : FS)
    (sfmFile timeStamp content : GoString) (columnNames : List GoString) :
    State × Option ExportError :=
  processLines env config (baseFileNameOf sfmFile) timeStamp columnNames
    (scannedLines content) (startState config fs sfmFile timeStamp)

/-- The end of `ConvertAndUpload`, after the scan loop has ended without an
error of a call: the error of the scanner is returned if there is one;
otherwise the writer is flushed and a last batch that holds a record is
finalized. -/
def finishRun (env : Env) (config : Config) (sfmFile content : GoString) (st : State) :
    Run :=
  if scanFails content then { fs := st.fs, events := st.events, err := some .reading }
  else if st.flush.recordCount > 0 then
    { fs := (finalizeBatch env config (baseFileNameOf sfmFile) st.flush).1.fs,
      events := (finalizeBatch env config (baseFileNameOf sfmFile) st.flush).1.events,
      err := (finalizeBatch env config (baseFileNameOf sfmFile) st.flush).2 }
  else { fs := st.flush.fs, events := st.flush.events, err := none }

/-- Go `ConvertAndUpload` for the SFM file at path `sfmFile` with the given
content, started at time `timeStamp`. -/
def ConvertAndUpload (env : Env) (config : Config) (fs : FS)
    (sfmFile timeStamp content : GoString) : Run :=
  match readColumnNames content with
  | .error _ =>
    { fs := (startState config fs sfmFile timeStamp).fs, events := [],
      err := some .columnNames }
  | .ok columnNames =>
    match scanLoop env config fs sfmFile timeStamp content columnNames with
    | (st, some err) => { fs := st.fs, events := st.events, err := some err }
    | (st, none) => finishRun env config sfmFile content st

/-! ## The orchestrator -/

/-- What one pass of the loop of `main` does with one SFM file. -/
structure Pass where
  content : GoString
  fs : FS
  events : List Event
  converted : Bool
  marked : Bool

/-- The orchestrator after `ConvertAndUpload` has returned: on an error the
file is left as it is, otherwise it is marked as exported. -/
def markAfter (content : GoString) (run : Run) : Pass :=
  match run.err with
  | some _ =>
    { content := content, fs := run.fs, events := run.events,
      converted := true, marked := false }
  | none =>
    { content := MarkAsExported content, fs := run.fs, events := run.events,
      converted := true, marked := true }

/-- The body of the loop of `main` for one SFM file: skip it when the check of
its export status fails or says it is exported already, otherwise convert and
upload it and, when that returned no error, mark it as exported. -/
def processFile (env : Env) (config : Config) (fs : FS)
    (sfmFile timeStamp content : GoString) : Pass :=
  match CheckIfExported content with
  | .error _ =>
    { content := content, fs := fs, events := [], converted := false, marked := false }
  | .ok true =>
    { content := content, fs := fs, events := [], converted := false, marked := false }
  | .ok false => markAfter content (ConvertAndUpload env config fs sfmFile timeStamp content)

/-- What is on disk and in the buffer of the writer for the current file. -/
def State.contents (st : State) : GoString :=
  ((st.fs st.jsonFileName).map FileData.plain).getD [] ++ st.pending

/-- The key and the data of an upload that was acknowledged. -/
def Event.acknowledged : Event → Option (GoString × FileData)
  | .uploaded _ s3Path data true => some (s3Path, data)
  | _ => none

/-- The uploads of a run that were acknowledged, in order: key and data. -/
def uploads (events : List Event) : List (GoString × FileData) :=
  events.filterMap Event.acknowledged

/-- The keys of the uploads that were acknowledged, in order. -/
def uploadedKeys (events : List Event) : List GoString :=
  (uploads events).map Prod.fst

/-- The key of the batch with index `i` for the data uploaded: `batchKey`, with
`.gz` appended for a gzip stream. -/
def keyFor (baseFileName : GoString) (i : Nat) : FileData → GoString
  | .gzip _ _ => batchKey baseFileName i ++ gzSuffix
  | _ => batchKey baseFileName i

/-- An environment in which the codec compresses every file to `z` bytes and
every upload is acknowledged. -/
def Env.reliable (z : Nat) : Env :=
  { gzip := fun _ _ => some z, putObject := fun _ _ => true }

/-- The empty file system. -/
def FS.empty : FS := fun _ => none

/-- Successive runs of the program over one SFM file, one per time stamp: each
run starts from the file content and the file system the run before left. -/
def laterPasses (env : Env) (config : Config) (sfmFile : GoString) :
    List GoString → FS → GoString → List Pass
  | [], _, _ => []
  | timeStamp :: more, fs, content =>
    let pass := processFile env config fs sfmFile timeStamp content
    pass :: laterPasses env config sfmFile more pass.fs pass.content

/-- In the words of the specification: the text starts with the sentinel key,
then any white space, a colon, any white space, and the literal `true`. -/
def specSentinelTrueAt (s : GoString) : Bool :=
  sentinelKey.isPrefixOf s &&
    match (s.drop sentinelKey.length).dropWhile isSpace with
    | ':' :: more => "true".toList.isPrefixOf (more.dropWhile isSpace)
    | _ => false

/-- In the words of the specification: the line carries the sentinel key with
the value true, white space around the colon tolerated. -/
def specCarriesSentinelTrue : GoString → Bool
  | [] => false
  | c :: cs => specSentinelTrueAt (c :: cs) || specCarriesSentinelTrue cs

/-- The error `ConvertAndUpload` returns when the call fails. -/
def Event.error : Event → ExportError
  | .compressed _ _ => .compressing
  | .uploaded _ _ _ _ => .uploading

/-- What holds of every call of a run: its outcome is the answer of the
collaborator (for a compression, the answer of the codec for the text file at
the path), and an upload is either the original text file under a key without
`.gz` (with compression on, the codec did not make it smaller), or, with
compression on, the strictly smaller gzip stream of the text file, taken from
the path of the text file plus `.gz`, under a key in `.gz`. -/
def Event.keyMatchesData (env : Env) (compression : Bool) : Event → Prop
  | .compressed filePath ok => ∃ c, ok = (env.gzip filePath (.text c)).isSome
  | .uploaded finalFile key data ok =>
    ok = env.putObject key data ∧
    ((∃ c, data = .text c ∧ HasSuffix key gzSuffix = false ∧
      HasSuffix finalFile gzSuffix = false ∧
      (compression = true → ∃ z, env.gzip finalFile (.text c) = some z ∧
        (FileData.text c).size ≤ z)) ∨
    (∃ z c name, data = .gzip z (.text c) ∧ HasSuffix key gzSuffix = true ∧
      finalFile = name ++ gzSuffix ∧ compression = true ∧
      env.gzip name (.text c) = some z ∧ z < (FileData.text c).size))

/-- The test `readColumnNames` applies to a line: it starts with the comment
marker and holds the separator. -/
def isHeaderLine (line : GoString) : Bool :=
  HasPrefix line ['#'] && Contains line [',']

/-- The key and the data of an upload that was made, acknowledged or not. -/
def Event.attempt : Event → Option (GoString × FileData)
  | .uploaded _ s3Path data _ => some (s3Path, data)
  | .compressed _ _ => none

/-- The uploads a run made, in order: key and data. -/
def attempts (events : List Event) : List (GoString × FileData) :=
  events.filterMap Event.attempt

/-- Whether the data is a gzip stream. -/
def FileData.isGzip : FileData → Bool
  | .gzip _ _ => true
  | _ => false

/-- The uploads of the batches 0, 1, ... with the given data, each under the
key of its batch. -/
def keyedFrom (baseFileName : GoString) (datas : List FileData) :
    List (GoString × FileData) :=
  (datas.enumFrom 0).map (fun p => (keyFor baseFileName p.1 p.2, p.2))

/-- A line of `maxScanTokenSize` bytes, the shortest a scanner cannot read. -/
def longLine : GoString := List.replicate maxScanTokenSize 'a'

/-- What `ParseSfmLine` returns: `(nil, nil)` for a skipped line, an error for
a field count that differs from the number of columns, or the map. -/
inductive ParseResult where
  | skipped
  | mismatch (expected got : Nat)
  | record (result : GoMap)
  deriving DecidableEq, Repr

/-- Go `ParseSfmLine`: comments and blank lines are skipped, a line whose
field count is not the number of columns is an error, and otherwise every
column name, in order, is assigned the trimmed field at its index. -/
def ParseSfmLine (line : GoString) (columnNames : List GoString) : ParseResult :=
  if HasPrefix line ['#'] || (TrimSpace line).isEmpty then .skipped
  else
    let fields := Split ',' line
    if fields.length ≠ columnNames.length then
      .mismatch columnNames.length fields.length
    else
      .record ((columnNames.enumFrom 0).foldl
        (fun result p => mapSet result p.2 (TrimSpace (fields.getD p.1 []))) [])

/-! # Properties -/

/-! ### Substrings, scanned lines, split and join -/

theorem Contains_iff_occurs (s sub : GoString) : Contains s sub = true ↔ sub <:+: s := by
  induction s with
  | nil => simp [Contains, List.isEmpty_iff]
  | cons c cs ih =>
    simp only [Contains, Bool.or_eq_true, ih, List.infix_cons_iff, List.isPrefixOf_iff_prefix]

theorem infix_append_sep {n l r : GoString} {sep : Char} (h : sep ∉ n) :
    n <:+: l ++ sep :: r ↔ n <:+: l ∨ n <:+: r := by
  constructor
  · rintro ⟨s, t, hst⟩
    rw [List.append_assoc] at hst
    rcases List.append_eq_append_iff.1 hst with ⟨a, ha, hb⟩ | ⟨a, ha, hb⟩
    · -- l = s ++ a, n ++ t = a ++ sep :: r
      rcases List.append_eq_append_iff.1 hb with ⟨b, hb1, hb2⟩ | ⟨b, hb1, hb2⟩
      · -- a = n ++ b
        left
        exact ⟨s, b, by rw [ha, hb1, List.append_assoc]⟩
      · -- n = a ++ b, sep :: r = b ++ t
        cases b with
        | nil =>
          left
          simp at hb1
          exact ⟨s, [], by simp [ha, hb1]⟩
        | cons x b =>
          exfalso
          simp at hb2
          apply h
          rw [hb1, hb2.1]
          simp
    · -- s = l ++ a, sep :: r = a ++ (n ++ t)
      cases a with
      | nil =>
        cases n with
        | nil => left; exact List.nil_infix
        | cons x n =>
          exfalso
          simp at hb
          exact h (by simp [hb.1])
      | cons x a =>
        right
        simp at hb
        exact ⟨a, t, by rw [hb.2, List.append_assoc]⟩
  · rintro (h1 | h1)
    · exact h1.trans (List.infix_append' [] l (sep :: r) |>.trans (by simp))
    · exact h1.trans ((List.suffix_cons sep r).isInfix.trans (List.suffix_append l _).isInfix)

theorem dropCR_occurs {n : GoString} (hr : '\r' ∉ n) (hne : n ≠ []) (tok : GoString) :
    n <:+: dropCR tok ↔ n <:+: tok := by
  unfold dropCR
  split
  · next h =>
    have htok : tok.dropLast ++ ['\r'] = tok := List.dropLast_append_getLast? _ h
    conv_rhs => rw [← htok]
    rw [infix_append_sep hr]
    simp [List.infix_nil, hne]
  · rfl

theorem scanFrom_occurs {n : GoString} (hn : '\n' ∉ n) (hr : '\r' ∉ n) (hne : n ≠ [])
    (rest : GoString) :
    ∀ cur : GoString, (∃ l ∈ scanFrom cur rest, n <:+: l) ↔ n <:+: cur ++ rest := by
  induction rest with
  | nil =>
    intro cur
    by_cases hc : cur = []
    · subst hc
      simp [scanFrom, hne]
    · simp [scanFrom, hc, dropCR_occurs hr hne]
  | cons c cs ih =>
    intro cur
    by_cases hc : c = '\n'
    · subst hc
      simp only [scanFrom, if_true, List.mem_cons, exists_eq_or_imp, dropCR_occurs hr hne]
      rw [ih [], infix_append_sep hn]
      simp
    · simp only [scanFrom, hc, if_false]
      rw [ih (cur ++ [c])]
      simp

theorem ScanLines_occurs {n : GoString} (hn : '\n' ∉ n) (hr : '\r' ∉ n) (hne : n ≠ [])
    (content : GoString) :
    (∃ l ∈ ScanLines content, n <:+: l) ↔ n <:+: content := by
  simpa [ScanLines] using scanFrom_occurs hn hr hne content []

theorem infix_ReplaceFirst (old new : GoString) :
    ∀ s : GoString, old <:+: s → new <:+: ReplaceFirst s old new := by
  intro s
  induction s with
  | nil =>
    intro h
    have : old = [] := List.infix_nil.1 h
    subst this
    simp [ReplaceFirst]
  | cons c cs ih =>
    intro h
    unfold ReplaceFirst
    split
    · exact (List.prefix_append new _).isInfix
    · next hp =>
      rcases List.infix_cons_iff.1 h with h1 | h1
      · exact absurd (List.isPrefixOf_iff_prefix.2 h1) hp
      · exact (ih h1).trans (List.suffix_cons c _).isInfix

theorem Split_ne_nil (sep : Char) (s : GoString) : Split sep s ≠ [] := by
  induction s with
  | nil => simp [Split]
  | cons c cs ih =>
    unfold Split
    split
    · simp
    · split <;> simp

theorem Join_cons_cons (sep : GoString) (c : Char) (seg : GoString) (segs : List GoString) :
    Join sep ((c :: seg) :: segs) = c :: Join sep (seg :: segs) := by
  cases segs <;> simp [Join]

theorem Join_Split (sep : Char) (s : GoString) : Join [sep] (Split sep s) = s := by
  induction s with
  | nil => simp [Split, Join]
  | cons c cs ih =>
    unfold Split
    split
    · next h =>
      subst h
      rcases hs : Split c cs with _ | ⟨q, ps⟩
      · exact absurd hs (Split_ne_nil _ _)
      · rw [hs] at ih
        simp [Join, ih]
    · next h =>
      rcases hs : Split sep cs with _ | ⟨q, ps⟩
      · exact absurd hs (Split_ne_nil _ _)
      · rw [hs] at ih
        simp only []
        rw [Join_cons_cons, ih]

theorem infix_Join_of_mem (sep : GoString) :
    ∀ (segs : List GoString) (seg : GoString), seg ∈ segs → seg <:+: Join sep segs := by
  intro segs
  induction segs with
  | nil => intro seg h; simp at h
  | cons p ps ih =>
    intro seg h
    cases ps with
    | nil =>
      simp at h
      subst h
      simp [Join]
    | cons q qs =>
      simp only [Join]
      rcases List.mem_cons.1 h with h1 | h1
      · subst h1
        rw [List.append_assoc]
        exact List.prefix_append _ _ |>.isInfix
      · exact (ih seg h1).trans (List.suffix_append _ _).isInfix

theorem Join_occurs {n : GoString} {sep : Char} (hs : sep ∉ n) (hne : n ≠ []) :
    ∀ segs : List GoString, n <:+: Join [sep] segs → ∃ seg ∈ segs, n <:+: seg := by
  intro segs
  induction segs with
  | nil => intro h; simp [Join, hne] at h
  | cons p ps ih =>
    intro h
    cases ps with
    | nil => exact ⟨p, by simp, by simpa [Join] using h⟩
    | cons q qs =>
      simp only [Join, List.append_assoc, List.singleton_append] at h
      rcases (infix_append_sep hs).1 h with h1 | h1
      · exact ⟨p, by simp, h1⟩
      · obtain ⟨seg, hseg, hin⟩ := ih h1
        exact ⟨seg, List.mem_cons_of_mem _ hseg, hin⟩

theorem ReplaceFirst_spec (old new : GoString) : ∀ s : GoString, old <:+: s →
    ∃ pre post, s = pre ++ old ++ post ∧
      (∀ pre' post', s = pre' ++ old ++ post' → pre.length ≤ pre'.length) ∧
      ReplaceFirst s old new = pre ++ new ++ post := by
  intro s
  induction s with
  | nil =>
    intro h
    have : old = [] := List.infix_nil.1 h
    subst this
    exact ⟨[], [], rfl, by simp, by simp [ReplaceFirst]⟩
  | cons c cs ih =>
    intro h
    by_cases hp : old.isPrefixOf (c :: cs) = true
    · refine ⟨[], (c :: cs).drop old.length, ?_, by simp, by simp [ReplaceFirst, hp]⟩
      have := List.prefix_iff_eq_append.1 (List.isPrefixOf_iff_prefix.1 hp)
      simpa using this.symm
    · have hcs : old <:+: cs := by
        rcases List.infix_cons_iff.1 h with h1 | h1
        · exact absurd (List.isPrefixOf_iff_prefix.2 h1) hp
        · exact h1
      obtain ⟨pre, post, h1, h2, h3⟩ := ih hcs
      refine ⟨c :: pre, post, by rw [h1]; simp, ?_, by simp [ReplaceFirst, hp, h3]⟩
      intro pre' post' h4
      cases pre' with
      | nil =>
        exfalso
        apply hp
        rw [List.isPrefixOf_iff_prefix]
        exact ⟨post', by simpa using h4.symm⟩
      | cons x pre'' =>
        simp only [List.cons_append, List.cons.injEq] at h4
        have := h2 pre'' post' (by rw [h4.2])
        simp only [List.length_cons]
        omega

theorem Join_cons_of_ne_nil (sep p : GoString) (ps : List GoString) (h : ps ≠ []) :
    Join sep (p :: ps) = p ++ sep ++ Join sep ps := by
  cases ps with
  | nil => exact absurd rfl h
  | cons q qs => rfl

theorem Join_merge (sep : Char) (a b : GoString) (post : List GoString) :
    ∀ pre : List GoString,
      Join [sep] (pre ++ (a ++ sep :: b) :: post) = Join [sep] (pre ++ a :: b :: post) := by
  intro pre
  induction pre with
  | nil =>
    cases post with
    | nil => simp [Join]
    | cons q qs => simp [Join]
  | cons p ps ih =>
    rw [List.cons_append, List.cons_append, Join_cons_of_ne_nil _ _ _ (by simp),
      Join_cons_of_ne_nil _ _ _ (by simp), ih]

theorem sep_not_mem_Split (sep : Char) : ∀ (s : GoString), ∀ seg ∈ Split sep s, sep ∉ seg := by
  intro s
  induction s with
  | nil => intro seg h; simp [Split] at h; subst h; simp
  | cons c cs ih =>
    intro seg h
    unfold Split at h
    by_cases hc : c = sep
    · rw [if_pos hc] at h
      rcases List.mem_cons.1 h with h1 | h1
      · subst h1; simp
      · exact ih seg h1
    · rw [if_neg hc] at h
      rcases hs : Split sep cs with _ | ⟨q, qs⟩
      · exact absurd hs (Split_ne_nil _ _)
      · rw [hs] at h ih
        simp only [] at h
        rcases List.mem_cons.1 h with h1 | h1
        · subst h1
          have := ih q (by simp)
          simp only [List.mem_cons, not_or]
          exact ⟨fun h2 => hc h2.symm, this⟩
        · exact ih seg (List.mem_cons_of_mem _ h1)

theorem Split_append_sep (sep : Char) (rest : GoString) : ∀ (p : GoString), sep ∉ p →
    Split sep (p ++ sep :: rest) = p :: Split sep rest := by
  intro p
  induction p with
  | nil => intro _; simp [Split]
  | cons c cs ih =>
    intro h
    simp only [List.mem_cons, not_or] at h
    have hc : c ≠ sep := fun h2 => h.1 h2.symm
    rw [List.cons_append, Split, if_neg hc, ih h.2]

theorem Split_of_not_mem (sep : Char) : ∀ (p : GoString), sep ∉ p → Split sep p = [p] := by
  intro p
  induction p with
  | nil => intro _; rfl
  | cons c cs ih =>
    intro h
    simp only [List.mem_cons, not_or] at h
    have hc : c ≠ sep := fun h2 => h.1 h2.symm
    rw [Split, if_neg hc, ih h.2]

theorem Split_Join (sep : Char) : ∀ segs : List GoString, segs ≠ [] →
    (∀ seg ∈ segs, sep ∉ seg) → Split sep (Join [sep] segs) = segs := by
  intro segs
  induction segs with
  | nil => intro h; exact absurd rfl h
  | cons p ps ih =>
    intro _ hall
    cases ps with
    | nil => simpa [Join] using Split_of_not_mem sep p (hall p (by simp))
    | cons q qs =>
      have h1 : Join [sep] (p :: q :: qs) = p ++ sep :: Join [sep] (q :: qs) := by
        simp [Join]
      rw [h1, Split_append_sep sep _ p (hall p (by simp)),
        ih (by simp) (fun seg hseg => hall seg (List.mem_cons_of_mem _ hseg))]

theorem length_Split_pos (sep : Char) (s : GoString) : 1 ≤ (Split sep s).length := by
  have := Split_ne_nil sep s
  cases hs : Split sep s with
  | nil => exact absurd hs this
  | cons a l => simp

theorem scanFrom_line (rest : GoString) : ∀ (l cur : GoString), '\n' ∉ l →
    scanFrom cur (l ++ '\n' :: rest) = dropCR (cur ++ l) :: scanFrom [] rest := by
  intro l
  induction l with
  | nil => intro cur _; simp [scanFrom]
  | cons c cs ih =>
    intro cur h
    simp only [List.mem_cons, not_or] at h
    have hc : c ≠ '\n' := fun h2 => h.1 h2.symm
    have h2 := ih (cur ++ [c]) h.2
    simp only [List.append_assoc, List.singleton_append] at h2
    rw [← h2]
    simp [scanFrom, hc]

theorem byteLen_append (a b : GoString) : byteLen (a ++ b) = byteLen a + byteLen b := by
  simp [byteLen]

theorem byteLen_replicate (n : Nat) : byteLen (List.replicate n 'a') = n := by
  have h : runeLen 'a' = 1 := by decide
  simp [byteLen, List.map_replicate, h]

theorem scanTokens_of_fits (rest : GoString) : ∀ cur : GoString,
    (scanTokens cur rest).2 = false → (scanTokens cur rest).1 = scanFrom cur rest := by
  induction rest with
  | nil =>
    intro cur h
    unfold scanTokens at h ⊢
    unfold scanFrom
    by_cases hc : cur.isEmpty = true
    · simp [hc]
    · by_cases hl : maxScanTokenSize ≤ byteLen cur
      · simp [hc, hl] at h
      · simp [hc, hl]
  | cons c cs ih =>
    intro cur h
    unfold scanTokens at h ⊢
    unfold scanFrom
    by_cases hc : c = '\n'
    · by_cases hl : maxScanTokenSize ≤ byteLen cur
      · simp [hc, hl] at h
      · simp only [hc, hl, if_true, if_false] at h ⊢
        rw [ih [] h]
    · simp only [hc, if_false] at h ⊢
      exact ih _ h

theorem scannedLines_of_fits (content : GoString) (h : scanFails content = false) :
    scannedLines content = ScanLines content :=
  scanTokens_of_fits content [] h

theorem scanTokens_prefix (rest : GoString) : ∀ cur : GoString,
    (scanTokens cur rest).1 <+: scanFrom cur rest := by
  induction rest with
  | nil =>
    intro cur
    unfold scanTokens scanFrom
    by_cases hc : cur.isEmpty = true
    · simp [hc]
    · by_cases hl : maxScanTokenSize ≤ byteLen cur
      · simp [hc, hl]
      · simp [hc, hl]
  | cons c cs ih =>
    intro cur
    unfold scanTokens scanFrom
    by_cases hc : c = '\n'
    · by_cases hl : maxScanTokenSize ≤ byteLen cur
      · simp [hc, hl]
      · simp only [hc, hl, if_true, if_false]
        exact (List.prefix_cons_inj _).2 (ih [])
    · simp only [hc, if_false]
      exact ih _

theorem scannedLines_prefix (content : GoString) :
    scannedLines content <+: ScanLines content :=
  scanTokens_prefix content []

theorem scanTokens_fails_iff (rest : GoString) : ∀ cur : GoString, '\n' ∉ cur →
    ((scanTokens cur rest).2 = true ↔
      ∃ seg ∈ Split '\n' (cur ++ rest), maxScanTokenSize ≤ byteLen seg) := by
  induction rest with
  | nil =>
    intro cur hcur
    rw [List.append_nil, Split_of_not_mem _ _ hcur]
    unfold scanTokens
    by_cases hc : cur.isEmpty = true
    · have : cur = [] := List.isEmpty_iff.1 hc
      subst this
      simp [byteLen, maxScanTokenSize]
    · by_cases hl : maxScanTokenSize ≤ byteLen cur
      · simp [hc, hl]
      · simp [hc, hl]
  | cons c cs ih =>
    intro cur hcur
    unfold scanTokens
    by_cases hc : c = '\n'
    · subst hc
      rw [Split_append_sep _ _ _ hcur]
      by_cases hl : maxScanTokenSize ≤ byteLen cur
      · simp [hl]
      · have := ih [] (by simp)
        simp only [List.nil_append] at this
        simp only [if_true, hl, if_false, this, List.mem_cons, exists_eq_or_imp, false_or]
    · simp only [hc, if_false]
      have hcur2 : '\n' ∉ cur ++ [c] := by
        simp only [List.mem_append, List.mem_singleton, not_or]
        exact ⟨hcur, fun h => hc h.symm⟩
      rw [ih _ hcur2]
      simp

/-- The scanner fails on a content exactly when some line of it, cut at the
line feeds, has `maxScanTokenSize` bytes or more. -/
theorem scanFails_iff (content : GoString) :
    scanFails content = true ↔
      ∃ seg ∈ Split '\n' content, maxScanTokenSize ≤ byteLen seg := by
  simpa using scanTokens_fails_iff content [] (by simp)

theorem scanFails_eq_false_iff (content : GoString) :
    scanFails content = false ↔
      ∀ seg ∈ Split '\n' content, byteLen seg < maxScanTokenSize := by
  rw [← Bool.not_eq_true, scanFails_iff]
  simp

theorem scanTokens_line (rest : GoString) : ∀ (l cur : GoString), '\n' ∉ l →
    scanTokens cur (l ++ '\n' :: rest) =
      if maxScanTokenSize ≤ byteLen (cur ++ l) then ([], true)
      else (dropCR (cur ++ l) :: (scanTokens [] rest).1, (scanTokens [] rest).2) := by
  intro l
  induction l with
  | nil => intro cur _; simp [scanTokens]
  | cons c cs ih =>
    intro cur h
    simp only [List.mem_cons, not_or] at h
    have hc : c ≠ '\n' := fun h2 => h.1 h2.symm
    have h2 := ih (cur ++ [c]) h.2
    simp only [List.append_assoc, List.singleton_append] at h2
    rw [← h2]
    simp [scanTokens, hc]

theorem Split_head_append (sep : Char) (post : GoString) : ∀ lit : GoString, sep ∉ lit →
    ∃ b B, Split sep post = b :: B ∧ Split sep (lit ++ post) = (lit ++ b) :: B := by
  intro lit
  induction lit with
  | nil =>
    intro _
    rcases hs : Split sep post with _ | ⟨b, B⟩
    · exact absurd hs (Split_ne_nil _ _)
    · exact ⟨b, B, rfl, by simpa using hs⟩
  | cons c cs ih =>
    intro h
    simp only [List.mem_cons, not_or] at h
    have hc : c ≠ sep := fun h2 => h.1 h2.symm
    obtain ⟨b, B, h1, h2⟩ := ih h.2
    refine ⟨b, B, h1, ?_⟩
    rw [List.cons_append, Split, if_neg hc, h2]
    rfl

/-- The lines of `pre ++ lit ++ post` for a `lit` without line feed: the lines
around are the same for every such `lit`, which sits inside one line. -/
theorem Split_sandwich (sep : Char) (post : GoString) : ∀ pre : GoString,
    ∃ (A : List GoString) (a b : GoString) (B : List GoString),
      ∀ lit : GoString, sep ∉ lit →
        Split sep (pre ++ lit ++ post) = A ++ (a ++ lit ++ b) :: B := by
  intro pre
  induction pre with
  | nil =>
    rcases hs : Split sep post with _ | ⟨b, B⟩
    · exact absurd hs (Split_ne_nil _ _)
    · refine ⟨[], [], b, B, ?_⟩
      intro lit hlit
      obtain ⟨b', B', h1, h2⟩ := Split_head_append sep post lit hlit
      rw [hs] at h1
      simp only [List.cons.injEq] at h1
      simpa [h1.1, h1.2] using h2
  | cons c cs ih =>
    obtain ⟨A, a, b, B, h⟩ := ih
    by_cases hc : c = sep
    · refine ⟨[] :: A, a, b, B, ?_⟩
      intro lit hlit
      have := h lit hlit
      simp only [List.cons_append, Split, hc, if_true] at this ⊢
      rw [List.append_assoc] at this
      simp [this]
    · cases A with
      | nil =>
        refine ⟨[], c :: a, b, B, ?_⟩
        intro lit hlit
        have := h lit hlit
        rw [List.append_assoc] at this
        simp only [List.cons_append, List.nil_append, List.append_assoc]
        rw [Split, if_neg hc, this]
        simp
      | cons x xs =>
        refine ⟨(c :: x) :: xs, a, b, B, ?_⟩
        intro lit hlit
        have := h lit hlit
        rw [List.append_assoc] at this
        simp only [List.cons_append, List.append_assoc]
        rw [Split, if_neg hc, this]
        simp

theorem newline_not_mem_longLine : '\n' ∉ longLine := by
  intro h
  exact absurd (List.eq_of_mem_replicate h) (by decide)

theorem byteLen_longLine : byteLen longLine = maxScanTokenSize := byteLen_replicate _

/-- The scanner yields nothing and fails when the text starts with the long
line. -/
theorem scanTokens_longLine (rest : GoString) :
    scanTokens [] (longLine ++ '\n' :: rest) = ([], true) := by
  rw [scanTokens_line _ _ _ newline_not_mem_longLine, List.nil_append, byteLen_longLine,
    if_pos (le_refl _)]

theorem dropCR_replicate (n : Nat) : dropCR (List.replicate n 'a') = List.replicate n 'a' := by
  unfold dropCR
  rw [List.getLast?_replicate]
  by_cases hn : n = 0
  · simp [hn]
  · simp [hn]

theorem scanFrom_longLine (rest : GoString) :
    ScanLines (longLine ++ '\n' :: rest) = longLine :: ScanLines rest := by
  have h : dropCR longLine = longLine := dropCR_replicate _
  unfold ScanLines
  rw [scanFrom_line _ _ _ newline_not_mem_longLine, List.nil_append, h]

theorem isPrefixOf_longLine (o : Char) (os rest : GoString) (n : Nat) (h : o ≠ 'a') :
    (o :: os).isPrefixOf (List.replicate (n + 1) 'a' ++ rest) = false := by
  simp [List.replicate_succ, List.isPrefixOf, h]

theorem Contains_replicate (o : Char) (os rest : GoString) (h : o ≠ 'a') : ∀ n : Nat,
    Contains (List.replicate n 'a' ++ rest) (o :: os) = Contains rest (o :: os) := by
  intro n
  induction n with
  | zero => simp
  | succ n ih =>
    have hp := isPrefixOf_longLine o os rest n h
    rw [List.replicate_succ, List.cons_append] at hp ⊢
    rw [Contains, hp, Bool.false_or, ih]

theorem ReplaceFirst_replicate (o : Char) (os new rest : GoString) (h : o ≠ 'a') : ∀ n : Nat,
    ReplaceFirst (List.replicate n 'a' ++ rest) (o :: os) new =
      List.replicate n 'a' ++ ReplaceFirst rest (o :: os) new := by
  intro n
  induction n with
  | zero => simp
  | succ n ih =>
    have hp := isPrefixOf_longLine o os rest n h
    rw [List.replicate_succ, List.cons_append] at hp ⊢
    rw [ReplaceFirst, hp, ih]
    simp

/-! ### The export state of a file -/

theorem lineMarksExported_iff (line : GoString) :
    lineMarksExported line = true ↔ sentinelTrue <:+: line ∨ sentinelTrueSp <:+: line := by
  have hk1 : sentinelKey <:+: sentinelTrue := ⟨[], ":true".toList, by decide⟩
  have hk2 : sentinelKey <:+: sentinelTrueSp := ⟨[], ": true".toList, by decide⟩
  simp only [lineMarksExported, Bool.and_eq_true, Bool.or_eq_true, Contains_iff_occurs]
  constructor
  · exact fun h => h.2
  · rintro (h | h)
    · exact ⟨hk1.trans h, Or.inl h⟩
    · exact ⟨hk2.trans h, Or.inr h⟩

theorem isAnchor_Split (content : GoString) (h : isAnchor content = true) :
    ∃ seg ∈ Split '\n' content, isAnchor seg = true := by
  simp only [isAnchor, Bool.or_eq_true, Contains_iff_occurs] at h ⊢
  rcases h with h | h
  · rw [← Join_Split '\n' content] at h
    obtain ⟨seg, hseg, hin⟩ := Join_occurs (by decide) (by decide) _ h
    exact ⟨seg, hseg, Or.inl hin⟩
  · rw [← Join_Split '\n' content] at h
    obtain ⟨seg, hseg, hin⟩ := Join_occurs (by decide) (by decide) _ h
    exact ⟨seg, hseg, Or.inr hin⟩

theorem insertFlag_has_flag :
    ∀ segs : List GoString, (∃ seg ∈ segs, isAnchor seg = true) →
      ∃ seg ∈ insertFlag segs, sentinelTrue <:+: seg := by
  intro segs
  induction segs with
  | nil => rintro ⟨seg, h, -⟩; simp at h
  | cons p ps ih =>
    rintro ⟨seg, hseg, hanch⟩
    unfold insertFlag
    split
    · exact ⟨p ++ "\njsonS3Exported:true".toList, List.mem_cons_self _ _,
        ⟨p ++ ['\n'], [], by simp [sentinelTrue]⟩⟩
    · next hp =>
      rcases List.mem_cons.1 hseg with h1 | h1
      · subst h1
        exact absurd hanch hp
      · obtain ⟨s', hs', hin⟩ := ih ⟨seg, h1, hanch⟩
        exact ⟨s', List.mem_cons_of_mem _ hs', hin⟩

theorem insertFlag_spec : ∀ segs : List GoString, (∃ seg ∈ segs, isAnchor seg = true) →
    ∃ pre anchor post, segs = pre ++ anchor :: post ∧ (∀ l ∈ pre, isAnchor l = false) ∧
      isAnchor anchor = true ∧
      insertFlag segs = pre ++ (anchor ++ '\n' :: sentinelTrue) :: post := by
  intro segs
  induction segs with
  | nil => rintro ⟨seg, h, -⟩; simp at h
  | cons p ps ih =>
    rintro ⟨seg, hseg, hanch⟩
    by_cases hp : isAnchor p = true
    · exact ⟨[], p, ps, rfl, by simp, hp, by simp [insertFlag, hp, sentinelTrue]⟩
    · have hrest : ∃ seg ∈ ps, isAnchor seg = true := by
        rcases List.mem_cons.1 hseg with h1 | h1
        · subst h1; exact absurd hanch hp
        · exact ⟨seg, h1, hanch⟩
      obtain ⟨pre, anchor, post, h1, h2, h3, h4⟩ := ih hrest
      refine ⟨p :: pre, anchor, post, by rw [h1]; rfl, ?_, h3, by simp [insertFlag, hp, h4]⟩
      intro l hl
      rcases List.mem_cons.1 hl with h5 | h5
      · rw [h5]; simpa using hp
      · exact h2 l h5

theorem CheckIfExported_ok_true_iff (content : GoString) :
    CheckIfExported content = .ok true ↔
      ∃ line ∈ scannedLines content, sentinelTrue <:+: line ∨ sentinelTrueSp <:+: line := by
  rw [← List.any_eq_true.trans (exists_congr fun l => and_congr_right
    fun _ => lineMarksExported_iff l)]
  unfold CheckIfExported
  by_cases h : (scannedLines content).any lineMarksExported = true
  · simp [h]
  · by_cases h2 : scanFails content = true
    · simp [h, h2]
    · simp [h, h2]

theorem CheckIfExported_error_iff (content : GoString) (e : ReadError) :
    CheckIfExported content = .error e ↔
      e = .scanning ∧ scanFails content = true ∧
        ¬ ∃ line ∈ scannedLines content, sentinelTrue <:+: line ∨ sentinelTrueSp <:+: line := by
  rw [← List.any_eq_true.trans (exists_congr fun l => and_congr_right
    fun _ => lineMarksExported_iff l)]
  unfold CheckIfExported
  by_cases h : (scannedLines content).any lineMarksExported = true
  · simp [h]
  · by_cases h2 : scanFails content = true
    · simp only [h, h2, if_true, Bool.false_eq_true, if_false, Result.error.injEq,
        not_false_eq_true, and_true]
      exact eq_comm
    · simp [h, h2]

theorem CheckIfExported_ok_false_iff (content : GoString) :
    CheckIfExported content = .ok false ↔
      scanFails content = false ∧
        ¬ ∃ line ∈ scannedLines content, sentinelTrue <:+: line ∨ sentinelTrueSp <:+: line := by
  rw [← List.any_eq_true.trans (exists_congr fun l => and_congr_right
    fun _ => lineMarksExported_iff l)]
  unfold CheckIfExported
  by_cases h : (scannedLines content).any lineMarksExported = true
  · simp [h]
  · by_cases h2 : scanFails content = true
    · simp [h, h2]
    · simp [h, h2]

theorem CheckIfExported_iff_occurs (content : GoString) (hfit : scanFails content = false) :
    CheckIfExported content = .ok true ↔
      sentinelTrue <:+: content ∨ sentinelTrueSp <:+: content := by
  have h1 := ScanLines_occurs (n := sentinelTrue) (by decide) (by decide) (by decide) content
  have h2 := ScanLines_occurs (n := sentinelTrueSp) (by decide) (by decide) (by decide) content
  rw [← h1, ← h2, CheckIfExported_ok_true_iff, scannedLines_of_fits content hfit]
  constructor
  · rintro ⟨l, hl, h | h⟩
    · exact Or.inl ⟨l, hl, h⟩
    · exact Or.inr ⟨l, hl, h⟩
  · rintro (⟨l, hl, h⟩ | ⟨l, hl, h⟩)
    · exact ⟨l, hl, Or.inl h⟩
    · exact ⟨l, hl, Or.inr h⟩

theorem fits_of_sandwich (A B : List GoString) (a b old new : GoString)
    (hlen : byteLen new ≤ byteLen old)
    (h : ∀ seg ∈ A ++ (a ++ old ++ b) :: B, byteLen seg < maxScanTokenSize) :
    ∀ seg ∈ A ++ (a ++ new ++ b) :: B, byteLen seg < maxScanTokenSize := by
  intro seg hseg
  rcases List.mem_append.1 hseg with h1 | h1
  · exact h seg (List.mem_append_left _ h1)
  · rcases List.mem_cons.1 h1 with h2 | h2
    · have := h (a ++ old ++ b) (by simp)
      rw [h2]
      simp only [byteLen_append] at this ⊢
      omega
    · exact h seg (by simp [h2])

theorem scanFails_replace (content old new : GoString) (hold : '\n' ∉ old) (hnew : '\n' ∉ new)
    (hlen : byteLen new ≤ byteLen old) (hin : old <:+: content)
    (hfit : scanFails content = false) :
    scanFails (ReplaceFirst content old new) = false := by
  obtain ⟨pre, post, h1, -, h3⟩ := ReplaceFirst_spec old new content hin
  obtain ⟨A, a, b, B, hs⟩ := Split_sandwich '\n' post pre
  rw [scanFails_eq_false_iff] at hfit ⊢
  rw [h3, hs new hnew]
  rw [h1, hs old hold] at hfit
  exact fits_of_sandwich A B a b old new hlen hfit

/-- The content `MarkAsExported` writes has no line too long for the scanner
when the content it reads has none. -/
theorem scanFails_MarkAsExported (content : GoString) (hfit : scanFails content = false) :
    scanFails (MarkAsExported content) = false := by
  unfold MarkAsExported
  split
  · next h1 =>
    exact scanFails_replace content _ _ (by decide) (by decide) (by decide)
      ((Contains_iff_occurs _ _).1 h1) hfit
  · split
    · next h2 =>
      exact scanFails_replace content _ _ (by decide) (by decide) (by decide)
        ((Contains_iff_occurs _ _).1 h2) hfit
    · split
      · next h3 =>
        obtain ⟨pre, anchor, post, e1, -, -, e4⟩ := insertFlag_spec _ (isAnchor_Split content h3)
        have hsplit := sep_not_mem_Split '\n' content
        rw [e1] at hsplit
        rw [scanFails_eq_false_iff] at hfit ⊢
        rw [e1] at hfit
        rw [e4, Join_merge, Split_Join _ _ (by simp)]
        · intro seg hseg
          rcases List.mem_append.1 hseg with h | h
          · exact hfit seg (List.mem_append_left _ h)
          · rcases List.mem_cons.1 h with h | h
            · rw [h]; exact hfit anchor (by simp)
            · rcases List.mem_cons.1 h with h | h
              · rw [h]; decide
              · exact hfit seg (by simp [h])
        · intro seg hseg
          rcases List.mem_append.1 hseg with h | h
          · exact hsplit seg (List.mem_append_left _ h)
          · rcases List.mem_cons.1 h with h | h
            · rw [h]; exact hsplit anchor (by simp)
            · rcases List.mem_cons.1 h with h | h
              · rw [h]; decide
              · exact hsplit seg (by simp [h])
      · exact hfit

theorem scanFails_longLine (rest : GoString) : scanFails (longLine ++ '\n' :: rest) = true := by
  rw [scanFails, scanTokens_longLine]

theorem scannedLines_longLine (rest : GoString) :
    scannedLines (longLine ++ '\n' :: rest) = [] := by
  rw [scannedLines, scanTokens_longLine]

theorem CheckIfExported_longLine (rest : GoString) :
    CheckIfExported (longLine ++ '\n' :: rest) = .error .scanning := by
  simp [CheckIfExported, scannedLines_longLine, scanFails_longLine]

/-- Whenever `MarkAsExported` finds something to act on, a sentinel with value
false or an anchor, in a content the scanner reads to the end, the content it
writes passes `CheckIfExported`. -/
theorem CheckIfExported_MarkAsExported (content : GoString)
    (hfit : scanFails content = false)
    (h : Contains content sentinelFalse = true ∨ Contains content sentinelFalseSp = true ∨
      isAnchor content = true) :
    CheckIfExported (MarkAsExported content) = .ok true := by
  rw [CheckIfExported_iff_occurs _ (scanFails_MarkAsExported content hfit)]
  unfold MarkAsExported
  split
  · next h1 =>
    exact Or.inl (infix_ReplaceFirst _ _ _ ((Contains_iff_occurs _ _).1 h1))
  · split
    · next h2 =>
      exact Or.inr (infix_ReplaceFirst _ _ _ ((Contains_iff_occurs _ _).1 h2))
    · next h1 h2 =>
      have h3 : isAnchor content = true := by
        rcases h with h | h | h
        · exact absurd h h1
        · exact absurd h h2
        · exact h
      rw [if_pos h3]
      obtain ⟨seg, hseg, hin⟩ := insertFlag_has_flag _ (isAnchor_Split content h3)
      exact Or.inl (hin.trans (infix_Join_of_mem _ _ _ hseg))

theorem laterPasses_skip (env : Env) (config : Config) (sfmFile content : GoString)
    (h : CheckIfExported content = .ok true) :
    ∀ (later : List GoString) (fs : FS), ∀ p ∈ laterPasses env config sfmFile later fs content,
      p.converted = false ∧ p.marked = false ∧ p.events = [] ∧ p.content = content := by
  intro later
  induction later with
  | nil => intro fs p hp; simp [laterPasses] at hp
  | cons t ts ih =>
    intro fs p hp
    simp only [laterPasses, processFile, h, List.mem_cons] at hp
    rcases hp with hp | hp
    · subst hp
      simp
    · exact ih fs p hp

theorem processFile_marked (env : Env) (config : Config) (fs : FS)
    (sfmFile timeStamp content : GoString)
    (h : (processFile env config fs sfmFile timeStamp content).marked = true) :
    CheckIfExported content = .ok false ∧
    (ConvertAndUpload env config fs sfmFile timeStamp content).err = none ∧
    (processFile env config fs sfmFile timeStamp content).content = MarkAsExported content := by
  unfold processFile at h ⊢
  cases hc : CheckIfExported content with
  | error e => simp [hc] at h
  | ok b =>
    cases b with
    | true => simp [hc] at h
    | false =>
      simp only [hc] at h ⊢
      unfold markAfter at h ⊢
      cases herr : (ConvertAndUpload env config fs sfmFile timeStamp content).err with
      | some e => simp [herr] at h
      | none => simp

/-- Claim C3, amended.  When the content holds a sentinel with value false
(`jsonS3Exported:false` or `jsonS3Exported: false`) or an anchor (`.sfm` or
`segmeta.json`), a pass of the orchestrator that marked the file has run
`ConvertAndUpload` without error, has written the content of `MarkAsExported`,
and that content passes `CheckIfExported`; every later pass then skips the
file: it does not call `ConvertAndUpload`, uploads nothing and leaves the
content as it is. -/
theorem exported_file_never_reuploaded (env env2 : Env) (config config2 : Config) (fs : FS)
    (sfmFile timeStamp content : GoString) (later : List GoString)
    (hflag : Contains content sentinelFalse = true ∨
      Contains content sentinelFalseSp = true ∨ isAnchor content = true)
    (hrun : (processFile env config fs sfmFile timeStamp content).marked = true) :
    (ConvertAndUpload env config fs sfmFile timeStamp content).err = none ∧
    (processFile env config fs sfmFile timeStamp content).content = MarkAsExported content ∧
    CheckIfExported (processFile env config fs sfmFile timeStamp content).content = .ok true ∧
    ∀ p ∈ laterPasses env2 config2 sfmFile later
        (processFile env config fs sfmFile timeStamp content).fs
        (processFile env config fs sfmFile timeStamp content).content,
      p.converted = false ∧ p.marked = false ∧ p.events = [] ∧
        p.content = MarkAsExported content := by
  obtain ⟨h1, h2, h3⟩ := processFile_marked env config fs sfmFile timeStamp content hrun
  have hfit : scanFails content = false := ((CheckIfExported_ok_false_iff content).1 h1).1
  have hchk := CheckIfExported_MarkAsExported content hfit hflag
  refine ⟨h2, h3, by rw [h3]; exact hchk, ?_⟩
  rw [h3]
  exact laterPasses_skip env2 config2 sfmFile _ hchk later _

/-- Claim C3, witness: a file with an anchor line, exported by a run in which
every upload is acknowledged. -/
theorem exported_file_never_reuploaded_witness :
    (ConvertAndUpload (Env.reliable 5) ⟨10, true, "/tmp".toList⟩ FS.empty
        "data/seg.sfm".toList "T1".toList "seg.sfm\n#id,name\n1,alice\n".toList).err = none ∧
    ∀ p ∈ laterPasses (Env.reliable 5) ⟨10, true, "/tmp".toList⟩ "data/seg.sfm".toList
        ["T2".toList, "T3".toList]
        (processFile (Env.reliable 5) ⟨10, true, "/tmp".toList⟩ FS.empty
          "data/seg.sfm".toList "T1".toList "seg.sfm\n#id,name\n1,alice\n".toList).fs
        (processFile (Env.reliable 5) ⟨10, true, "/tmp".toList⟩ FS.empty
          "data/seg.sfm".toList "T1".toList "seg.sfm\n#id,name\n1,alice\n".toList).content,
      p.converted = false :=
  have h := exported_file_never_reuploaded (Env.reliable 5) (Env.reliable 5)
    ⟨10, true, "/tmp".toList⟩ ⟨10, true, "/tmp".toList⟩ FS.empty
    "data/seg.sfm".toList "T1".toList "seg.sfm\n#id,name\n1,alice\n".toList
    ["T2".toList, "T3".toList] (by decide) (by decide)
  ⟨h.1, fun p hp => (h.2.2.2 p hp).1⟩

/-- Claim C3 as stated fails: a file with a header and one row, no sentinel and
no anchor line, is exported without error and marked, the content written back
is the content read, `CheckIfExported` is still false on it, and the next pass
converts and uploads the file again. -/
theorem reupload_without_anchor :
    (processFile (Env.reliable 5) ⟨10, false, "/tmp".toList⟩ FS.empty
        "data/seg.sfm".toList "T1".toList "#id,name\n1,alice\n".toList).marked = true ∧
    (processFile (Env.reliable 5) ⟨10, false, "/tmp".toList⟩ FS.empty
        "data/seg.sfm".toList "T1".toList "#id,name\n1,alice\n".toList).content
      = "#id,name\n1,alice\n".toList ∧
    CheckIfExported (processFile (Env.reliable 5) ⟨10, false, "/tmp".toList⟩ FS.empty
        "data/seg.sfm".toList "T1".toList "#id,name\n1,alice\n".toList).content = .ok false ∧
    (laterPasses (Env.reliable 5) ⟨10, false, "/tmp".toList⟩ "data/seg.sfm".toList
        ["T2".toList] FS.empty "#id,name\n1,alice\n".toList).map
          (fun p => (p.converted, uploadedKeys p.events))
      = [(true, ["seg/batch-0.json".toList])] := by
  decide

/-- Claim C4, the code at the failing input: a file that `CheckIfExported`
reports as exported and that has an anchor line is changed by `MarkAsExported`
(a second sentinel line is inserted), and marking it twice differs from marking
it once. -/
theorem MarkAsExported_not_idempotent :
    CheckIfExported "seg.sfm\njsonS3Exported:true\n#id,name\n1,alice\n".toList = .ok true ∧
    MarkAsExported "seg.sfm\njsonS3Exported:true\n#id,name\n1,alice\n".toList
      = "seg.sfm\njsonS3Exported:true\njsonS3Exported:true\n#id,name\n1,alice\n".toList ∧
    MarkAsExported (MarkAsExported "seg.sfm\n#id,name\n1,alice\n".toList)
      ≠ MarkAsExported "seg.sfm\n#id,name\n1,alice\n".toList := by
  decide

/-- Claim C9, amended.  `CheckIfExported` returns true exactly when some line
its scanner yields contains the literal `jsonS3Exported:true` or the literal
`jsonS3Exported: true` (nothing before the colon, at most one space after it).
The scanner yields an initial part of the lines of the file, and all of them
when no line has `maxScanTokenSize` bytes or more, which is when it does not
fail.  When no yielded line contains one of the two literals the result is
false if the scanner did not fail and the error of the scanner if it did.  For
a file without too long a line, true is returned exactly when the content
contains one of the two literals; it is true on the first file of the test and
false on the second. -/
theorem CheckIfExported_iff_literal (content : GoString) :
    (CheckIfExported content = .ok true ↔
      ∃ line ∈ scannedLines content,
        Contains line sentinelTrue = true ∨ Contains line sentinelTrueSp = true) ∧
    (CheckIfExported content = .ok false ↔
      scanFails content = false ∧
        ¬ ∃ line ∈ scannedLines content,
          Contains line sentinelTrue = true ∨ Contains line sentinelTrueSp = true) ∧
    (CheckIfExported content = .error .scanning ↔
      scanFails content = true ∧
        ¬ ∃ line ∈ scannedLines content,
          Contains line sentinelTrue = true ∨ Contains line sentinelTrueSp = true) ∧
    CheckIfExported content ≠ .error .notFound ∧
    (scanFails content = true ↔
      ∃ line ∈ Split '\n' content, maxScanTokenSize ≤ byteLen line) ∧
    scannedLines content <+: ScanLines content ∧
    (scanFails content = false →
      scannedLines content = ScanLines content ∧
      (CheckIfExported content = .ok true ↔
        Contains content sentinelTrue = true ∨ Contains content sentinelTrueSp = true)) ∧
    CheckIfExported
      "\n# header\nname,age,location\njsonS3Exported:true\nJohn,30,New York\n".toList
        = .ok true ∧
    CheckIfExported
      "\n# header\nname,age,location\njsonS3Exported:false\nJane,25,Los Angeles\n".toList
        = .ok false := by
  refine ⟨?_, ?_, ?_, ?_, scanFails_iff content, scannedLines_prefix content, ?_,
    by decide, by decide⟩
  · simp only [Contains_iff_occurs]
    exact CheckIfExported_ok_true_iff content
  · simp only [Contains_iff_occurs]
    exact CheckIfExported_ok_false_iff content
  · simp only [Contains_iff_occurs]
    rw [CheckIfExported_error_iff]
    simp
  · intro h
    have := (CheckIfExported_error_iff content _).1 h
    exact absurd this.1 (by decide)
  · intro hfit
    refine ⟨scannedLines_of_fits content hfit, ?_⟩
    simp only [Contains_iff_occurs]
    exact CheckIfExported_iff_occurs content hfit

/-- Claim C9, witness: a file whose first line has `maxScanTokenSize` bytes and
whose second line is `jsonS3Exported:true`; the scanner fails on the first
line and `CheckIfExported` returns its error. -/
theorem CheckIfExported_iff_literal_witness :
    CheckIfExported (longLine ++ '\n' :: "jsonS3Exported:true\n".toList) = .error .scanning :=
  (CheckIfExported_iff_literal (longLine ++ '\n' :: "jsonS3Exported:true\n".toList)).2.2.1.2
    ⟨scanFails_longLine _, by rw [scannedLines_longLine]; simp⟩

/-- Claim C9 as stated fails: the line `jsonS3Exported : true` carries the
sentinel with value true, with white space around the colon, and
`CheckIfExported` returns false; so it does for a tab or two spaces after the
colon.  And in a file whose first line has `maxScanTokenSize` bytes the line
`jsonS3Exported:true` carries the sentinel with value true, and
`CheckIfExported` returns an error. -/
theorem CheckIfExported_whitespace_not_tolerated :
    (∃ line ∈ ScanLines "#id,name\njsonS3Exported : true\n".toList,
      specCarriesSentinelTrue line = true) ∧
    CheckIfExported "#id,name\njsonS3Exported : true\n".toList = .ok false ∧
    specCarriesSentinelTrue "jsonS3Exported:  true".toList = true ∧
    CheckIfExported "jsonS3Exported:  true\n".toList = .ok false ∧
    specCarriesSentinelTrue "jsonS3Exported:\ttrue".toList = true ∧
    CheckIfExported "jsonS3Exported:\ttrue\n".toList = .ok false ∧
    (∃ line ∈ ScanLines (longLine ++ '\n' :: "jsonS3Exported:true\n".toList),
      specCarriesSentinelTrue line = true) ∧
    CheckIfExported (longLine ++ '\n' :: "jsonS3Exported:true\n".toList)
      = .error .scanning := by
  refine ⟨by decide, by decide, by decide, by decide, by decide, by decide, ?_,
    CheckIfExported_longLine _⟩
  rw [scanFrom_longLine]
  exact ⟨"jsonS3Exported:true".toList, List.mem_cons_of_mem _ (by decide), by decide⟩

/-- Claim C10 as stated fails: in a file whose first line has
`maxScanTokenSize` bytes and whose second line is `jsonS3Exported:false`,
`MarkAsExported` flips the sentinel, and `CheckIfExported` on the content
written back returns the error of its scanner, not true. -/
theorem flip_not_seen_after_long_line :
    Contains (longLine ++ '\n' :: "jsonS3Exported:false\n".toList) sentinelFalse = true ∧
    MarkAsExported (longLine ++ '\n' :: "jsonS3Exported:false\n".toList)
      = longLine ++ '\n' :: "jsonS3Exported:true\n".toList ∧
    CheckIfExported (MarkAsExported (longLine ++ '\n' :: "jsonS3Exported:false\n".toList))
      = .error .scanning := by
  have hc : Contains (longLine ++ '\n' :: "jsonS3Exported:false\n".toList) sentinelFalse
      = true := by
    have := Contains_replicate 'j' "sonS3Exported:false".toList
      ('\n' :: "jsonS3Exported:false\n".toList) (by decide) maxScanTokenSize
    exact this.trans (by decide)
  have hm : MarkAsExported (longLine ++ '\n' :: "jsonS3Exported:false\n".toList)
      = longLine ++ '\n' :: "jsonS3Exported:true\n".toList := by
    unfold MarkAsExported
    rw [if_pos hc]
    have := ReplaceFirst_replicate 'j' "sonS3Exported:false".toList sentinelTrue
      ('\n' :: "jsonS3Exported:false\n".toList) (by decide) maxScanTokenSize
    exact this.trans (congrArg (longLine ++ ·) (by decide))
  exact ⟨hc, hm, by rw [hm]; exact CheckIfExported_longLine _⟩

/-- Claim C10, amended.  When no line of the content has `maxScanTokenSize`
bytes or more and the content holds the sentinel with value false, as
`jsonS3Exported:false` or as `jsonS3Exported: false`, `CheckIfExported` returns
true on the content `MarkAsExported` writes back. -/
theorem CheckIfExported_after_flip (content : GoString)
    (hfit : ∀ line ∈ Split '\n' content, byteLen line < maxScanTokenSize)
    (h : Contains content sentinelFalse = true ∨ Contains content sentinelFalseSp = true) :
    CheckIfExported (MarkAsExported content) = .ok true :=
  CheckIfExported_MarkAsExported content ((scanFails_eq_false_iff content).2 hfit)
    (h.elim Or.inl (fun h2 => Or.inr (Or.inl h2)))

/-- Claim C10, witness: the file of `TestMarkAsExported`. -/
theorem CheckIfExported_after_flip_witness :
    Contains "\n# header\nname,age,location\njsonS3Exported:false\nJane,25,Los Angeles\n".toList
      sentinelFalse = true ∧
    CheckIfExported (MarkAsExported
      "\n# header\nname,age,location\njsonS3Exported:false\nJane,25,Los Angeles\n".toList)
        = .ok true :=
  ⟨by decide, CheckIfExported_after_flip _ (by decide) (Or.inl (by decide))⟩

/-! ### Records and the members of their JSON object -/

theorem strLE_total : ∀ a b : GoString, strLE a b = true ∨ strLE b a = true := by
  intro a
  induction a with
  | nil => intro b; simp [strLE]
  | cons x xs ih =>
    intro b
    cases b with
    | nil => simp [strLE]
    | cons y ys =>
      simp only [strLE, Bool.or_eq_true, Bool.and_eq_true, decide_eq_true_eq]
      rcases Nat.lt_trichotomy x.toNat y.toNat with h | h | h
      · exact Or.inl (Or.inl h)
      · rcases ih ys with h2 | h2
        · exact Or.inl (Or.inr ⟨h, h2⟩)
        · exact Or.inr (Or.inr ⟨h.symm, h2⟩)
      · exact Or.inr (Or.inl h)

theorem strLE_trans : ∀ a b c : GoString, strLE a b = true → strLE b c = true →
    strLE a c = true := by
  intro a
  induction a with
  | nil => intro b c _ _; simp [strLE]
  | cons x xs ih =>
    intro b c hab hbc
    cases b with
    | nil => simp [strLE] at hab
    | cons y ys =>
      cases c with
      | nil => simp [strLE] at hbc
      | cons z zs =>
        simp only [strLE, Bool.or_eq_true, Bool.and_eq_true, decide_eq_true_eq] at hab hbc ⊢
        rcases hab with h1 | ⟨h1, h1'⟩ <;> rcases hbc with h2 | ⟨h2, h2'⟩
        · exact Or.inl (by omega)
        · exact Or.inl (by omega)
        · exact Or.inl (by omega)
        · exact Or.inr ⟨by omega, ih ys zs h1' h2'⟩

theorem keys_mapSet (k v : GoString) : ∀ m : GoMap,
    (mapSet m k v).map Prod.fst =
      if k ∈ m.map Prod.fst then m.map Prod.fst else m.map Prod.fst ++ [k] := by
  intro m
  induction m with
  | nil => simp [mapSet]
  | cons e rest ih =>
    obtain ⟨k0, v0⟩ := e
    unfold mapSet
    by_cases h : k0 = k
    · simp [h]
    · have h' : ¬ k = k0 := fun h2 => h h2.symm
      simp only [h, if_false, List.map_cons, ih, List.mem_cons, h', false_or]
      split <;> simp

theorem nodup_keys_mapSet (k v : GoString) (m : GoMap) (h : (m.map Prod.fst).Nodup) :
    ((mapSet m k v).map Prod.fst).Nodup := by
  rw [keys_mapSet]
  split
  · exact h
  · next hk =>
    exact List.nodup_append.2 ⟨h, List.nodup_singleton k, by
      intro a ha hb
      simp at hb
      exact hk (hb ▸ ha)⟩

theorem mem_mapSet (k v k1 v1 : GoString) : ∀ m : GoMap, (m.map Prod.fst).Nodup →
    ((k1, v1) ∈ mapSet m k v ↔ (k1 = k ∧ v1 = v) ∨ (k1 ≠ k ∧ (k1, v1) ∈ m)) := by
  intro m
  induction m with
  | nil => intro _; simp [mapSet]
  | cons e rest ih =>
    obtain ⟨k0, v0⟩ := e
    intro hnd
    simp only [List.map_cons, List.nodup_cons] at hnd
    unfold mapSet
    by_cases h : k0 = k
    · subst h
      simp only [if_true, List.mem_cons, Prod.mk.injEq]
      constructor
      · rintro (⟨h1, h2⟩ | h1)
        · exact Or.inl ⟨h1, h2⟩
        · by_cases hk : k1 = k0
          · subst hk
            exact absurd (List.mem_map_of_mem Prod.fst h1) hnd.1
          · exact Or.inr ⟨hk, Or.inr h1⟩
      · rintro (⟨h1, h2⟩ | ⟨h1, h2 | h2⟩)
        · exact Or.inl ⟨h1, h2⟩
        · exact absurd h2.1 h1
        · exact Or.inr h2
    · simp only [h, if_false, List.mem_cons, Prod.mk.injEq, ih hnd.2]
      constructor
      · rintro (⟨h1, h2⟩ | ⟨h1, h2⟩ | ⟨h1, h2⟩)
        · exact Or.inr ⟨by rw [h1]; exact h, Or.inl ⟨h1, h2⟩⟩
        · exact Or.inl ⟨h1, h2⟩
        · exact Or.inr ⟨h1, Or.inr h2⟩
      · rintro (⟨h1, h2⟩ | ⟨h1, ⟨h2, h3⟩ | h2⟩)
        · exact Or.inr (Or.inl ⟨h1, h2⟩)
        · exact Or.inl ⟨h2, h3⟩
        · exact Or.inr (Or.inr ⟨h1, h2⟩)

theorem buildRecord_eq (columnNames record : List GoString) :
    buildRecord columnNames record =
      (columnNames.zip (record.map TrimSpace)).foldl (fun m kv => mapSet m kv.1 kv.2) [] := by
  unfold buildRecord
  rw [List.zip_map_right, List.foldl_map]
  rfl

theorem nodup_keys_foldl_mapSet : ∀ (kvs acc : GoMap), (acc.map Prod.fst).Nodup →
    ((kvs.foldl (fun m kv => mapSet m kv.1 kv.2) acc).map Prod.fst).Nodup := by
  intro kvs
  induction kvs with
  | nil => intro acc h; exact h
  | cons e rest ih =>
    intro acc h
    exact ih _ (nodup_keys_mapSet e.1 e.2 acc h)

theorem mem_foldl_mapSet (k v : GoString) : ∀ (kvs acc : GoMap), (acc.map Prod.fst).Nodup →
    ((k, v) ∈ kvs.foldl (fun m kv => mapSet m kv.1 kv.2) acc ↔
      (∃ pre post, kvs = pre ++ (k, v) :: post ∧ ∀ e ∈ post, e.1 ≠ k) ∨
      ((k, v) ∈ acc ∧ ∀ e ∈ kvs, e.1 ≠ k)) := by
  intro kvs
  induction kvs with
  | nil => intro acc _; simp
  | cons e rest ih =>
    intro acc hnd
    obtain ⟨k0, v0⟩ := e
    simp only [List.foldl_cons]
    rw [ih _ (nodup_keys_mapSet k0 v0 acc hnd), mem_mapSet k0 v0 k v acc hnd]
    constructor
    · rintro (⟨pre, post, hr, hp⟩ | ⟨⟨h1, h2⟩ | ⟨h1, h2⟩, h3⟩)
      · exact Or.inl ⟨(k0, v0) :: pre, post, by rw [hr]; rfl, hp⟩
      · exact Or.inl ⟨[], rest, by rw [h1, h2]; rfl, h3⟩
      · refine Or.inr ⟨h2, ?_⟩
        intro e he
        rcases List.mem_cons.1 he with h | h
        · rw [h]; exact fun h4 => h1 h4.symm
        · exact h3 e h
    · rintro (⟨pre, post, hr, hp⟩ | ⟨h1, h2⟩)
      · cases pre with
        | nil =>
          simp only [List.nil_append, List.cons.injEq, Prod.mk.injEq] at hr
          obtain ⟨⟨h1, h2⟩, h3⟩ := hr
          exact Or.inr ⟨Or.inl ⟨h1.symm, h2.symm⟩, by rw [h3]; exact hp⟩
        | cons e pre =>
          simp only [List.cons_append, List.cons.injEq] at hr
          exact Or.inl ⟨pre, post, hr.2, hp⟩
      · have hk : k ≠ k0 := fun h => h2 (k0, v0) (List.mem_cons_self _ _) h.symm
        exact Or.inr ⟨Or.inr ⟨hk, h1⟩, fun e he => h2 e (List.mem_cons_of_mem _ he)⟩

theorem mapSet_of_not_mem (k v : GoString) : ∀ m : GoMap, k ∉ m.map Prod.fst →
    mapSet m k v = m ++ [(k, v)] := by
  intro m
  induction m with
  | nil => intro _; rfl
  | cons e rest ih =>
    obtain ⟨k0, v0⟩ := e
    intro h
    simp only [List.map_cons, List.mem_cons, not_or] at h
    have h0 : ¬ k0 = k := fun h2 => h.1 h2.symm
    simp [mapSet, h0, ih h.2]

theorem foldl_mapSet_of_nodup : ∀ (kvs acc : GoMap),
    (acc.map Prod.fst ++ kvs.map Prod.fst).Nodup →
    kvs.foldl (fun m kv => mapSet m kv.1 kv.2) acc = acc ++ kvs := by
  intro kvs
  induction kvs with
  | nil => intro acc _; simp
  | cons e rest ih =>
    intro acc h
    obtain ⟨k0, v0⟩ := e
    have hk : k0 ∉ acc.map Prod.fst := by
      intro hmem
      have := (List.nodup_append.1 h).2.2
      exact this hmem (by simp)
    simp only [List.foldl_cons]
    rw [mapSet_of_not_mem k0 v0 acc hk, ih]
    · simp
    · simpa [List.append_assoc] using h

theorem marshalMembers_sorted (m : GoMap) (h : (m.map Prod.fst).Nodup) :
    (marshalMembers m).Pairwise (fun x y => strLE x.1 y.1 = true ∧ x.1 ≠ y.1) := by
  haveI : IsTotal (GoString × GoString) entryLE := ⟨fun x y => strLE_total x.1 y.1⟩
  haveI : IsTrans (GoString × GoString) entryLE :=
    ⟨fun x y z h1 h2 => strLE_trans x.1 y.1 z.1 h1 h2⟩
  have hs : (marshalMembers m).Pairwise entryLE := List.sorted_insertionSort entryLE m
  have hp : (marshalMembers m).Perm m := List.perm_insertionSort entryLE m
  have hn : ((marshalMembers m).map Prod.fst).Nodup := (hp.map Prod.fst).nodup_iff.2 h
  have hn2 : (marshalMembers m).Pairwise (fun x y => x.1 ≠ y.1) := List.pairwise_map.1 hn
  exact hs.and hn2

/-- Claim C5, amended.  For a line that is not skipped and has as many fields as
there are columns, `ConvertAndUpload` writes the JSON object whose members are
in ascending order of the key, every key once; a key has the trimmed field of
the last column that bears its name.  When the column names are distinct the
members are the pairs of the i-th column name and the i-th trimmed field, as a
permutation, and in header order exactly when the header is in ascending
order. -/
theorem convertLine_members (columnNames : List GoString) (line : GoString)
    (hline : isSkipped line = false)
    (hlen : (Split ',' line).length = columnNames.length) :
    convertLine columnNames line =
      some ('\x7b' :: Join [',']
        ((marshalMembers (buildRecord columnNames (Split ',' line))).map encodeMember)
          ++ ['\x7d'] ++ ['\n']) ∧
    (marshalMembers (buildRecord columnNames (Split ',' line))).Pairwise
      (fun x y => strLE x.1 y.1 = true ∧ x.1 ≠ y.1) ∧
    (∀ k v, (k, v) ∈ marshalMembers (buildRecord columnNames (Split ',' line)) ↔
      ∃ pre post, columnNames.zip ((Split ',' line).map TrimSpace) = pre ++ (k, v) :: post ∧
        ∀ e ∈ post, e.1 ≠ k) ∧
    (columnNames.Nodup →
      (marshalMembers (buildRecord columnNames (Split ',' line))).Perm
        (columnNames.zip ((Split ',' line).map TrimSpace))) ∧
    (columnNames.Nodup → columnNames.Pairwise (fun a b => strLE a b = true) →
      marshalMembers (buildRecord columnNames (Split ',' line)) =
        columnNames.zip ((Split ',' line).map TrimSpace)) := by
  have hkeys : (columnNames.zip ((Split ',' line).map TrimSpace)).map Prod.fst = columnNames :=
    List.map_fst_zip _ _ (by simp [hlen])
  have hnd : ((buildRecord columnNames (Split ',' line)).map Prod.fst).Nodup := by
    rw [buildRecord_eq]
    exact nodup_keys_foldl_mapSet _ [] (by simp)
  have hzip : columnNames.Nodup → buildRecord columnNames (Split ',' line) =
      columnNames.zip ((Split ',' line).map TrimSpace) := by
    intro h
    rw [buildRecord_eq, foldl_mapSet_of_nodup _ [] (by simpa [hkeys] using h)]
    simp
  refine ⟨?_, marshalMembers_sorted _ hnd, ?_, ?_, ?_⟩
  · simp [convertLine, hline, hlen, Marshal]
  · intro k v
    unfold marshalMembers
    rw [(List.perm_insertionSort entryLE _).mem_iff, buildRecord_eq,
      mem_foldl_mapSet k v _ [] (by simp)]
    simp
  · intro h
    have hp := List.perm_insertionSort entryLE (buildRecord columnNames (Split ',' line))
    rw [hzip h] at hp
    rw [marshalMembers, hzip h]
    exact hp
  · intro h hs
    rw [marshalMembers, hzip h]
    apply List.Sorted.insertionSort_eq
    have : ((columnNames.zip ((Split ',' line).map TrimSpace)).map Prod.fst).Pairwise
        (fun a b => strLE a b = true) := by rw [hkeys]; exact hs
    exact (List.pairwise_map (f := Prod.fst)
      (R := fun a b => strLE a b = true)).1 this

/-- Claim C5, witness: the header `id,name` and the line ` 1 , alice `. -/
theorem convertLine_members_witness :
    convertLine ["id".toList, "name".toList] " 1 , alice ".toList =
      some "\x7b\"id\":\"1\",\"name\":\"alice\"\x7d\n".toList ∧
    marshalMembers (buildRecord ["id".toList, "name".toList] (Split ',' " 1 , alice ".toList)) =
      [("id".toList, "1".toList), ("name".toList, "alice".toList)] :=
  have h := convertLine_members ["id".toList, "name".toList] " 1 , alice ".toList
    (by decide) (by decide)
  ⟨h.1.trans (by decide), (h.2.2.2.2 (by decide) (by decide)).trans (by decide)⟩

/-- Claim C5 as stated fails: for the header `b,a` and the line `1,2` the first
key written is `a`, the second column name, with the second field; and for the
header `a,a` a single key is written. -/
theorem keys_not_in_header_order :
    convertLine ["b".toList, "a".toList] "1,2".toList =
      some "\x7b\"a\":\"2\",\"b\":\"1\"\x7d\n".toList ∧
    marshalMembers (buildRecord ["b".toList, "a".toList] (Split ',' "1,2".toList)) =
      [("a".toList, "2".toList), ("b".toList, "1".toList)] ∧
    (marshalMembers (buildRecord ["b".toList, "a".toList] (Split ',' "1,2".toList))).map Prod.fst
      ≠ ["b".toList, "a".toList] ∧
    convertLine ["a".toList, "a".toList] "1,2".toList = some "\x7b\"a\":\"2\"\x7d\n".toList := by
  decide

/-! ### The finalize sequence: compress, then upload -/

theorem HasSuffix_json_gz (x : GoString) :
    HasSuffix (x ++ jsonSuffix) gzSuffix = false := by
  simp [HasSuffix, List.isSuffixOf, List.reverse_append, List.isPrefixOf, gzSuffix, jsonSuffix]

theorem HasSuffix_gz_gz (x : GoString) :
    HasSuffix (x ++ gzSuffix) gzSuffix = true := by
  simp [HasSuffix, List.isSuffixOf, List.reverse_append, List.isPrefixOf, gzSuffix]

theorem append_gz_ne (p : GoString) : p ++ gzSuffix ≠ p := by
  intro h
  have := congrArg List.length h
  simp [gzSuffix] at this

theorem batchKey_no_gz (base : GoString) (n : Nat) :
    HasSuffix (batchKey base n) gzSuffix = false := by
  unfold batchKey
  exact HasSuffix_json_gz _

theorem finalizeBatch_spec (env : Env) (config : Config) (base : GoString) (st : State)
    (c x : GoString) (hfs : st.fs st.jsonFileName = some (.text c))
    (hname : st.jsonFileName = x ++ jsonSuffix) :
    (finalizeBatch env config base st).1.batchCount = st.batchCount ∧
    (finalizeBatch env config base st).1.recordCount = st.recordCount ∧
    ((config.Compression = true ∧ env.gzip st.jsonFileName (.text c) = none ∧
        (finalizeBatch env config base st).2 = some .compressing ∧
        (finalizeBatch env config base st).1.events =
          st.events ++ [.compressed st.jsonFileName false]) ∨
      ∃ finalFile key data,
        (finalizeBatch env config base st).1.events =
          st.events ++ (if config.Compression then [.compressed st.jsonFileName true] else [])
            ++ [.uploaded finalFile key data (env.putObject key data)] ∧
        (finalizeBatch env config base st).2 =
          (if env.putObject key data then none else some .uploading) ∧
        ((finalFile = st.jsonFileName ∧ key = batchKey base st.batchCount ∧ data = .text c ∧
            (config.Compression = true →
              ∃ z, env.gzip st.jsonFileName (.text c) = some z ∧ (FileData.text c).size ≤ z)) ∨
          (config.Compression = true ∧ finalFile = st.jsonFileName ++ gzSuffix ∧
            key = batchKey base st.batchCount ++ gzSuffix ∧
            ∃ z, env.gzip st.jsonFileName (.text c) = some z ∧ z < (FileData.text c).size ∧
              data = .gzip z (.text c)))) := by
  have hne := append_gz_ne st.jsonFileName
  have hsuf : HasSuffix st.jsonFileName gzSuffix = false := by
    rw [hname]; exact HasSuffix_json_gz x
  have hsuf2 := HasSuffix_gz_gz st.jsonFileName
  cases hcomp : config.Compression
  · -- no compression
    have h1 : compressStep env config st = (st, some st.jsonFileName) := by
      simp [compressStep, hcomp]
    refine ⟨?_, ?_, Or.inr ⟨st.jsonFileName, batchKey base st.batchCount, .text c, ?_, ?_, ?_⟩⟩
    · simp [finalizeBatch, h1, uploadStep]
    · simp [finalizeBatch, h1, uploadStep]
    · simp [finalizeBatch, h1, uploadStep, s3PathFor, hsuf, UploadToS3, hfs]
    · simp [finalizeBatch, h1, uploadStep, s3PathFor, hsuf, UploadToS3, hfs]
    · exact Or.inl ⟨rfl, rfl, rfl, by simp⟩
  · cases hgz : env.gzip st.jsonFileName (.text c) with
    | none =>
      have h1 : compressStep env config st =
          ({ st with fs := st.fs.write (st.jsonFileName ++ gzSuffix) .broken,
                     events := st.events ++ [.compressed st.jsonFileName false] }, none) := by
        simp [compressStep, hcomp, CompressFile, hfs, hgz]
      refine ⟨?_, ?_, Or.inl ⟨rfl, rfl, ?_, ?_⟩⟩ <;> simp [finalizeBatch, h1]
    | some z =>
      by_cases hz : z ≥ (FileData.text c).size
      · have h1 : compressStep env config st =
            ({ st with
                fs := ((st.fs.write (st.jsonFileName ++ gzSuffix)
                  (.gzip z (.text c))).remove (st.jsonFileName ++ gzSuffix)),
                events := st.events ++ [.compressed st.jsonFileName true] },
              some st.jsonFileName) := by
          simp [compressStep, hcomp, CompressFile, hfs, hgz, hz]
        refine ⟨?_, ?_, Or.inr ⟨st.jsonFileName, batchKey base st.batchCount, .text c,
          ?_, ?_, ?_⟩⟩
        · simp [finalizeBatch, h1, uploadStep]
        · simp [finalizeBatch, h1, uploadStep]
        · simp [finalizeBatch, h1, uploadStep, s3PathFor, hsuf, UploadToS3, FS.write,
            FS.remove, hne.symm, hfs]
        · simp [finalizeBatch, h1, uploadStep, s3PathFor, hsuf, UploadToS3, FS.write,
            FS.remove, hne.symm, hfs]
        · exact Or.inl ⟨rfl, rfl, rfl, fun _ => ⟨z, rfl, hz⟩⟩
      · have h1 : compressStep env config st =
            ({ st with
                fs := st.fs.write (st.jsonFileName ++ gzSuffix) (.gzip z (.text c)),
                events := st.events ++ [.compressed st.jsonFileName true] },
              some (st.jsonFileName ++ gzSuffix)) := by
          simp [compressStep, hcomp, CompressFile, hfs, hgz, hz]
        refine ⟨?_, ?_, Or.inr ⟨st.jsonFileName ++ gzSuffix,
          batchKey base st.batchCount ++ gzSuffix, .gzip z (.text c), ?_, ?_, ?_⟩⟩
        · simp [finalizeBatch, h1, uploadStep]
        · simp [finalizeBatch, h1, uploadStep]
        · simp [finalizeBatch, h1, uploadStep, s3PathFor, hsuf2, UploadToS3, FS.write]
        · simp [finalizeBatch, h1, uploadStep, s3PathFor, hsuf2, UploadToS3, FS.write]
        · exact Or.inr ⟨rfl, rfl, rfl, z, rfl, by omega, rfl⟩

/-! ### The calls of a run: a failed call is the last one -/

theorem events_addRecord (st : State) (j : GoString) : (st.addRecord j).events = st.events := by
  unfold State.addRecord
  simp only []
  split <;> rfl

theorem events_flush (st : State) : st.flush.events = st.events := rfl

theorem flush_fs (st : State) :
    st.flush.fs st.flush.jsonFileName = some (.text st.contents) := by
  simp [State.flush, FS.write, State.contents]

theorem finalizeBatch_keyed (env : Env) (config : Config) (base : GoString) (st : State)
    (c x : GoString) (hfs : st.fs st.jsonFileName = some (.text c))
    (hname : st.jsonFileName = x ++ jsonSuffix)
    (hev : ∀ e ∈ st.events, e.keyMatchesData env config.Compression) :
    ∀ e ∈ (finalizeBatch env config base st).1.events,
      e.keyMatchesData env config.Compression := by
  obtain ⟨-, -, h | ⟨finalFile, key, data, h1, -, h3⟩⟩ :=
    finalizeBatch_spec env config base st c x hfs hname
  · rw [h.2.2.2]
    intro e he
    rcases List.mem_append.1 he with h1 | h1
    · exact hev e h1
    · simp at h1; subst h1; exact ⟨c, by rw [h.2.1]; rfl⟩
  · rw [h1]
    intro e he
    rcases List.mem_append.1 he with h4 | h4
    · rcases List.mem_append.1 h4 with h5 | h5
      · exact hev e h5
      · split at h5
        · next hcomp =>
          simp at h5; subst h5
          rcases h3 with ⟨-, -, -, hz⟩ | ⟨-, -, -, z, hgz, -, -⟩
          · obtain ⟨z, hgz, -⟩ := hz hcomp
            exact ⟨c, by rw [hgz]; rfl⟩
          · exact ⟨c, by rw [hgz]; rfl⟩
        · simp at h5
    · simp at h4
      subst h4
      refine ⟨rfl, ?_⟩
      rcases h3 with ⟨hf, hk, hd, hz⟩ | ⟨hcomp, hf, hk, z, hgz, hz, hd⟩
      · left
        refine ⟨c, hd, by rw [hk]; exact batchKey_no_gz _ _, ?_, ?_⟩
        · rw [hf, hname]; exact HasSuffix_json_gz x
        · rw [hf]; exact hz
      · right
        exact ⟨z, c, st.jsonFileName, hd, by rw [hk]; exact HasSuffix_gz_gz _, hf, hcomp,
          hgz, hz⟩

theorem jsonFileName_compressStep (env : Env) (config : Config) (st : State) :
    (compressStep env config st).1.jsonFileName = st.jsonFileName := by
  unfold compressStep
  split <;> rfl

theorem jsonFileName_finalizeBatch (env : Env) (config : Config) (base : GoString)
    (st : State) : (finalizeBatch env config base st).1.jsonFileName = st.jsonFileName := by
  have h0 := jsonFileName_compressStep env config st
  unfold finalizeBatch
  rcases h : compressStep env config st with ⟨st1, o⟩
  rw [h] at h0
  cases o <;> simpa [uploadStep] using h0

theorem jsonFileName_addRecord (st : State) (j : GoString) :
    (st.addRecord j).jsonFileName = st.jsonFileName := by
  unfold State.addRecord
  simp only []
  split <;> rfl

theorem processLines_keyed (env : Env) (config : Config) (base ts : GoString)
    (cols : List GoString) : ∀ (lines : List GoString) (st : State),
    (∃ x, st.jsonFileName = x ++ jsonSuffix) →
    (∀ e ∈ st.events, e.keyMatchesData env config.Compression) →
    (∃ x, (processLines env config base ts cols lines st).1.jsonFileName = x ++ jsonSuffix) ∧
    ∀ e ∈ (processLines env config base ts cols lines st).1.events,
      e.keyMatchesData env config.Compression := by
  intro lines
  induction lines with
  | nil => intro st hn hev; exact ⟨hn, hev⟩
  | cons line rest ih =>
    intro st hn hev
    unfold processLines
    cases hconv : convertLine cols line with
    | none => exact ih st hn hev
    | some j =>
      simp only []
      obtain ⟨x, hx⟩ := hn
      split
      · have hk := finalizeBatch_keyed env config base (st.addRecord j).flush _ x
          (flush_fs _) (by
            show (st.addRecord j).jsonFileName = _
            rw [jsonFileName_addRecord, hx])
          (by rw [events_flush, events_addRecord]; exact hev)
        have hnm : (finalizeBatch env config base (st.addRecord j).flush).1.jsonFileName
            = x ++ jsonSuffix := by
          have : (st.addRecord j).flush.jsonFileName = x ++ jsonSuffix := by
            show (st.addRecord j).jsonFileName = _
            rw [jsonFileName_addRecord, hx]
          rw [jsonFileName_finalizeBatch, this]
        rcases hfin : finalizeBatch env config base (st.addRecord j).flush with ⟨st2, err⟩
        rw [hfin] at hk hnm
        cases err with
        | some e => exact ⟨⟨x, hnm⟩, hk⟩
        | none =>
          simp only []
          exact ih (st2.rotate config base ts)
            ⟨_, rfl⟩ hk
      · exact ih (st.addRecord j) ⟨x, by rw [jsonFileName_addRecord, hx]⟩
          (by rw [events_addRecord]; exact hev)

theorem ConvertAndUpload_keyed (env : Env) (config : Config) (fs : FS)
    (sfmFile ts content : GoString) :
    ∀ e ∈ (ConvertAndUpload env config fs sfmFile ts content).events,
      e.keyMatchesData env config.Compression := by
  unfold ConvertAndUpload
  cases hcols : readColumnNames content with
  | error e => simp
  | ok cols =>
    simp only []
    obtain ⟨⟨x, hx⟩, hk⟩ := processLines_keyed env config (baseFileNameOf sfmFile) ts cols
      (scannedLines content) (startState config fs sfmFile ts) ⟨_, rfl⟩ (by simp [startState])
    unfold scanLoop
    rcases hloop : processLines env config (baseFileNameOf sfmFile) ts cols
      (scannedLines content) (startState config fs sfmFile ts) with ⟨st, err⟩
    rw [hloop] at hx hk
    cases err with
    | some e => exact hk
    | none =>
      simp only []
      unfold finishRun
      split
      · exact hk
      · split
        · exact finalizeBatch_keyed env config _ st.flush _ x (flush_fs st) hx hk
        · exact hk

/-- Claim C7.  `CompressFile` on an existing file whose gzip stream has `z`
bytes: when `z` is below the size of the file the compressed path is returned
and holds the stream; when it is not, the compressed copy is removed, the
original path is returned and the original file is untouched; so the file at
the returned path is never larger than the original, and is smaller when the
path differs.  In a run of `ConvertAndUpload` every upload is either the
original text file under a key that does not end in `.gz` (with compression
on: the stream was not smaller), or the smaller gzip stream of the text file
under a key that ends in `.gz`; the key ends in `.gz` exactly when the data
uploaded is the compressed one. -/
theorem compressed_only_if_smaller (env : Env) (config : Config) (fs : FS)
    (sfmFile timeStamp content : GoString) :
    (∀ (fs0 : FS) (filePath : GoString) (source : FileData) (z : Nat),
      fs0 filePath = some source → env.gzip filePath source = some z →
        (z < source.size →
          (CompressFile env fs0 filePath).2 = some (filePath ++ gzSuffix) ∧
          (CompressFile env fs0 filePath).1 (filePath ++ gzSuffix) = some (.gzip z source)) ∧
        (source.size ≤ z →
          (CompressFile env fs0 filePath).2 = some filePath ∧
          (CompressFile env fs0 filePath).1 (filePath ++ gzSuffix) = none ∧
          (CompressFile env fs0 filePath).1 filePath = some source) ∧
        ∃ ret data, (CompressFile env fs0 filePath).2 = some ret ∧
          (CompressFile env fs0 filePath).1 ret = some data ∧
          data.size ≤ source.size ∧ (ret ≠ filePath → data.size < source.size)) ∧
    (∀ finalFile key data ok,
      Event.uploaded finalFile key data ok ∈
        (ConvertAndUpload env config fs sfmFile timeStamp content).events →
      (HasSuffix key gzSuffix = true ↔ ∃ z src, data = .gzip z src) ∧
      ((∃ c, data = .text c ∧ HasSuffix key gzSuffix = false ∧
          (config.Compression = true →
            ∃ z, env.gzip finalFile (.text c) = some z ∧ (FileData.text c).size ≤ z)) ∨
        (∃ z c name, data = .gzip z (.text c) ∧ HasSuffix key gzSuffix = true ∧
          finalFile = name ++ gzSuffix ∧ config.Compression = true ∧
          env.gzip name (.text c) = some z ∧ z < (FileData.text c).size))) := by
  constructor
  · intro fs0 filePath source z hfs hgz
    have hne := append_gz_ne filePath
    refine ⟨?_, ?_, ?_⟩
    · intro hz
      have hz' : ¬ z ≥ source.size := by omega
      simp [CompressFile, hfs, hgz, hz', FS.write]
    · intro hz
      have hz' : z ≥ source.size := hz
      simp [CompressFile, hfs, hgz, hz', FS.write, FS.remove, hne.symm]
    · by_cases hz : z ≥ source.size
      · refine ⟨filePath, source, ?_, ?_, le_refl _, fun h => absurd rfl h⟩ <;>
          simp [CompressFile, hfs, hgz, hz, FS.write, FS.remove, hne.symm]
      · refine ⟨filePath ++ gzSuffix, .gzip z source, ?_, ?_, ?_, ?_⟩
        · simp [CompressFile, hfs, hgz, hz]
        · simp [CompressFile, hfs, hgz, hz, FS.write]
        · show z ≤ source.size
          omega
        · intro _
          show z < source.size
          omega
  · intro finalFile key data ok hmem
    have h := ConvertAndUpload_keyed env config fs sfmFile timeStamp content _ hmem
    simp only [Event.keyMatchesData] at h
    rcases h.2 with ⟨c, hd, hk, -, hz⟩ | ⟨z, c, name, hd, hk, hf, hcomp, hgz, hz⟩
    · refine ⟨?_, Or.inl ⟨c, hd, hk, hz⟩⟩
      rw [hk, hd]
      simp
    · refine ⟨?_, Or.inr ⟨z, c, name, hd, hk, hf, hcomp, hgz, hz⟩⟩
      rw [hk, hd]
      simp

/-- Claim C7, witness: a file of ten bytes that the codec brings to five
bytes, and a run with compression on in which the codec returns five bytes
for the one batch of 26 bytes. -/
theorem compressed_only_if_smaller_witness :
    (CompressFile (Env.reliable 5) (FS.empty.write "a.json".toList (.text "0123456789".toList))
        "a.json".toList).2 = some "a.json.gz".toList ∧
    (HasSuffix "seg/batch-0.json.gz".toList gzSuffix = true ↔
      ∃ z src, FileData.gzip 5 (.text "\x7b\"id\":\"1\",\"name\":\"alice\"\x7d\n".toList)
        = .gzip z src) :=
  have h := compressed_only_if_smaller (Env.reliable 5) ⟨10, true, "/tmp".toList⟩ FS.empty
    "data/seg.sfm".toList "T".toList "#id,name\n1,alice\n".toList
  ⟨((h.1 (FS.empty.write "a.json".toList (.text "0123456789".toList)) "a.json".toList
      (.text "0123456789".toList) 5 (by decide) (by decide)).1 (by decide)).1,
   (h.2 "/tmp/seg-T.json.gz".toList "seg/batch-0.json.gz".toList
      (.gzip 5 (.text "\x7b\"id\":\"1\",\"name\":\"alice\"\x7d\n".toList)) true (by decide)).1⟩

/-! ### The scan loop when no call fails -/

theorem batchCount_addRecord (st : State) (j : GoString) :
    (st.addRecord j).batchCount = st.batchCount := by
  unfold State.addRecord
  simp only []
  split <;> rfl

theorem findHeader_none (lines : List GoString) :
    findHeader lines = none ↔ ∀ line ∈ lines, isHeaderLine line = false := by
  induction lines with
  | nil => simp [findHeader]
  | cons l rest ih =>
    unfold findHeader
    by_cases h : (HasPrefix l ['#'] && Contains l [',']) = true
    · rw [if_pos h]
      have h' : isHeaderLine l = true := h
      constructor
      · intro h2; simp at h2
      · intro h2
        have := h2 l (List.mem_cons_self _ _)
        rw [h'] at this
        exact absurd this (by simp)
    · rw [if_neg h, ih]
      have h' : isHeaderLine l = false := by simpa [isHeaderLine] using h
      simp [h']

theorem findHeader_some (lines : List GoString) (cols : List GoString)
    (h : findHeader lines = some cols) :
    ∃ pre line post, lines = pre ++ line :: post ∧
      (∀ l ∈ pre, isHeaderLine l = false) ∧ isHeaderLine line = true ∧
      cols = (Split ',' (TrimPrefix line ['#'])).map TrimSpace := by
  induction lines with
  | nil => simp [findHeader] at h
  | cons l rest ih =>
    unfold findHeader at h
    by_cases hl : (HasPrefix l ['#'] && Contains l [',']) = true
    · rw [if_pos hl] at h
      exact ⟨[], l, rest, rfl, by simp, hl, by simpa using h.symm⟩
    · rw [if_neg hl] at h
      obtain ⟨pre, line, post, h1, h2, h3, h4⟩ := ih h
      refine ⟨l :: pre, line, post, by rw [h1]; rfl, ?_, h3, h4⟩
      intro l' hl'
      rcases List.mem_cons.1 hl' with h5 | h5
      · rw [h5]; simpa [isHeaderLine] using hl
      · exact h2 l' h5

/-- Claim C11 as stated fails: in a stream whose first line has
`maxScanTokenSize` bytes and whose second line is `#id,name`, a line starts
with `#` and holds a `,`, and `readColumnNames` fails, with the error of its
scanner. -/
theorem header_after_long_line :
    (∃ line ∈ ScanLines (longLine ++ '\n' :: "#id,name\n".toList),
      HasPrefix line ['#'] = true ∧ Contains line [','] = true) ∧
    readColumnNames (longLine ++ '\n' :: "#id,name\n".toList) = .error .scanning := by
  constructor
  · rw [scanFrom_longLine]
    exact ⟨"#id,name".toList, List.mem_cons_of_mem _ (by decide), by decide⟩
  · rw [readColumnNames, scannedLines_longLine, scanFails_longLine]
    rfl

/-- Claim C11, amended.  When `readColumnNames` returns column names, they come
from the first line of the stream that both starts with `#` and holds a `,`:
the lines before it are not of that kind, the line is `#` followed by a rest,
and the names are the pieces of the rest between commas, each trimmed of
surrounding white space, in order; there is at least one name.  It fails
exactly when no line its scanner yields is of that kind: with "column names
not found" when the scanner read the stream to its end, and with the error of
the scanner when it stopped at a line of `maxScanTokenSize` bytes or more.  For
a stream with no such line the scanner yields every line, and `readColumnNames`
fails, with "column names not found", exactly when no line of the stream both
starts with `#` and holds a `,`. -/
theorem readColumnNames_first_header (content : GoString) :
    (∀ cols, readColumnNames content = .ok cols →
      ∃ pre rest post, ScanLines content = pre ++ ('#' :: rest) :: post ∧
        (∀ l ∈ pre, ¬ (HasPrefix l ['#'] = true ∧ Contains l [','] = true)) ∧
        Contains ('#' :: rest) [','] = true ∧
        cols = (Split ',' rest).map TrimSpace ∧
        1 ≤ cols.length) ∧
    ((∃ e, readColumnNames content = .error e) ↔
      ∀ line ∈ scannedLines content,
        ¬ (HasPrefix line ['#'] = true ∧ Contains line [','] = true)) ∧
    (readColumnNames content = .error .notFound ↔
      scanFails content = false ∧
      ∀ line ∈ ScanLines content,
        ¬ (HasPrefix line ['#'] = true ∧ Contains line [','] = true)) ∧
    (readColumnNames content = .error .scanning ↔
      scanFails content = true ∧
      ∀ line ∈ scannedLines content,
        ¬ (HasPrefix line ['#'] = true ∧ Contains line [','] = true)) ∧
    scannedLines content <+: ScanLines content ∧
    (scanFails content = true ↔
      ∃ line ∈ Split '\n' content, maxScanTokenSize ≤ byteLen line) ∧
    ((∀ line ∈ Split '\n' content, byteLen line < maxScanTokenSize) →
      scannedLines content = ScanLines content ∧
      (readColumnNames content = .error .notFound ↔
        ∀ line ∈ ScanLines content,
          ¬ (HasPrefix line ['#'] = true ∧ Contains line [','] = true)) ∧
      ((∃ cols, readColumnNames content = .ok cols) ↔
        ∃ line ∈ ScanLines content,
          HasPrefix line ['#'] = true ∧ Contains line [','] = true)) := by
  have hnone : findHeader (scannedLines content) = none ↔
      ∀ line ∈ scannedLines content,
        ¬ (HasPrefix line ['#'] = true ∧ Contains line [','] = true) := by
    rw [findHeader_none]
    simp [isHeaderLine]
  have hfail : (∃ e, readColumnNames content = .error e) ↔
      findHeader (scannedLines content) = none := by
    unfold readColumnNames
    cases hf : findHeader (scannedLines content) with
    | some cols => simp
    | none =>
      by_cases hs : scanFails content = true
      · simp [hs]
      · simp [hs]
  have hnf : readColumnNames content = .error .notFound ↔
      scanFails content = false ∧ findHeader (scannedLines content) = none := by
    unfold readColumnNames
    cases hf : findHeader (scannedLines content) with
    | some cols => simp
    | none =>
      by_cases hs : scanFails content = true
      · simp [hs]
      · simp [hs]
  have hsc : readColumnNames content = .error .scanning ↔
      scanFails content = true ∧ findHeader (scannedLines content) = none := by
    unfold readColumnNames
    cases hf : findHeader (scannedLines content) with
    | some cols => simp
    | none =>
      by_cases hs : scanFails content = true
      · simp [hs]
      · simp [hs]
  refine ⟨?_, hfail.trans hnone, ?_, ?_, scannedLines_prefix content, scanFails_iff content, ?_⟩
  · intro cols h
    have hf : findHeader (scannedLines content) = some cols := by
      unfold readColumnNames at h
      cases hf : findHeader (scannedLines content) with
      | some c =>
        rw [hf] at h
        simp only [Result.ok.injEq] at h
        rw [h]
      | none =>
        rw [hf] at h
        by_cases hs : scanFails content = true
        · simp [hs] at h
        · simp [hs] at h
    obtain ⟨pre, line, post, h1, h2, h3, h4⟩ := findHeader_some _ cols hf
    obtain ⟨t, ht⟩ := scannedLines_prefix content
    simp only [isHeaderLine, Bool.and_eq_true] at h3
    cases line with
    | nil => simp [HasPrefix] at h3
    | cons c rest =>
      have hc : c = '#' := by
        have := h3.1
        simp [HasPrefix] at this
        exact this.symm
      subst hc
      refine ⟨pre, rest, post ++ t, by rw [← ht, h1]; simp, ?_, h3.2, ?_, ?_⟩
      · intro l hl
        have := h2 l hl
        simp only [isHeaderLine, Bool.and_eq_false_iff] at this
        rintro ⟨ha, hb⟩
        rcases this with h5 | h5
        · rw [ha] at h5; exact absurd h5 (by simp)
        · rw [hb] at h5; exact absurd h5 (by simp)
      · rw [h4]
        simp [TrimPrefix]
      · rw [h4, List.length_map]
        exact length_Split_pos _ _
  · rw [hnf]
    constructor
    · rintro ⟨h1, h2⟩
      refine ⟨h1, ?_⟩
      rw [← scannedLines_of_fits content h1]
      exact hnone.1 h2
    · rintro ⟨h1, h2⟩
      refine ⟨h1, hnone.2 ?_⟩
      rw [scannedLines_of_fits content h1]
      exact h2
  · rw [hsc, hnone]
  · intro hfit
    have hs : scanFails content = false := (scanFails_eq_false_iff content).2 hfit
    have heq := scannedLines_of_fits content hs
    refine ⟨heq, ?_, ?_⟩
    · rw [hnf, hnone, heq]
      simp [hs]
    · rw [← heq]
      constructor
      · rintro ⟨cols, hc⟩
        by_contra hno
        have : findHeader (scannedLines content) = none := by
          rw [hnone]
          intro line hl hh
          exact hno ⟨line, hl, hh⟩
        obtain ⟨e, he⟩ := hfail.2 this
        rw [hc] at he
        exact absurd he (by simp)
      · rintro ⟨line, hl, hh⟩
        cases hr : readColumnNames content with
        | ok cols => exact ⟨cols, rfl⟩
        | error e =>
          exfalso
          exact (hnone.1 (hfail.1 ⟨e, hr⟩)) line hl hh

/-- Claim C11, witness: a file whose second line is the header `#id, name`. -/
theorem readColumnNames_first_header_witness :
    readColumnNames "# note\n#id, name\n#x,y\n1,alice\n".toList =
      .ok ["id".toList, "name".toList] ∧
    ∃ pre rest post, ScanLines "# note\n#id, name\n#x,y\n1,alice\n".toList
        = pre ++ ('#' :: rest) :: post ∧
      ["id".toList, "name".toList] = (Split ',' rest).map TrimSpace :=
  have h := (readColumnNames_first_header "# note\n#id, name\n#x,y\n1,alice\n".toList).1
    ["id".toList, "name".toList] (by decide)
  ⟨by decide, by
    obtain ⟨pre, rest, post, h1, -, -, h2, -⟩ := h
    exact ⟨pre, rest, post, h1, h2⟩⟩

/-! ### The rewrite of `MarkAsExported` -/

theorem not_Contains_of_key_absent (content lit : GoString) (hk : sentinelKey <:+: lit)
    (h : Contains content sentinelKey = false) : Contains content lit = false := by
  cases hc : Contains content lit with
  | false => rfl
  | true =>
    have := (Contains_iff_occurs _ _).2 (hk.trans ((Contains_iff_occurs _ _).1 hc))
    rw [h] at this
    exact absurd this (by simp)

/-- Claim C12, amended.  `MarkAsExported` rewrites the content by cases.  When
the content holds `jsonS3Exported:false`, the first occurrence of that literal
becomes `jsonS3Exported:true` and every other byte stays.  Otherwise, when it
holds `jsonS3Exported: false`, the first occurrence of that literal becomes
`jsonS3Exported: true` and every other byte stays.  When the sentinel key is
absent and some line is an anchor, the line `jsonS3Exported:true` is inserted
right after the first anchor line and the other lines stay, in order.  When the
sentinel key is absent and no line is an anchor, the content is written back
unchanged. -/
theorem MarkAsExported_by_cases (content : GoString) :
    (Contains content sentinelFalse = true →
      ∃ pre post, content = pre ++ sentinelFalse ++ post ∧
        (∀ pre' post', content = pre' ++ sentinelFalse ++ post' → pre.length ≤ pre'.length) ∧
        MarkAsExported content = pre ++ sentinelTrue ++ post) ∧
    (Contains content sentinelFalse = false → Contains content sentinelFalseSp = true →
      ∃ pre post, content = pre ++ sentinelFalseSp ++ post ∧
        (∀ pre' post', content = pre' ++ sentinelFalseSp ++ post' →
          pre.length ≤ pre'.length) ∧
        MarkAsExported content = pre ++ sentinelTrueSp ++ post) ∧
    (Contains content sentinelKey = false →
      (∃ line ∈ Split '\n' content, isAnchor line = true) →
      ∃ pre anchor post, Split '\n' content = pre ++ anchor :: post ∧
        (∀ l ∈ pre, isAnchor l = false) ∧ isAnchor anchor = true ∧
        MarkAsExported content = Join ['\n'] (pre ++ anchor :: sentinelTrue :: post) ∧
        Split '\n' (MarkAsExported content) = pre ++ anchor :: sentinelTrue :: post) ∧
    (Contains content sentinelKey = false →
      (∀ line ∈ Split '\n' content, isAnchor line = false) →
      MarkAsExported content = content) := by
  have hk1 : sentinelKey <:+: sentinelFalse := ⟨[], ":false".toList, by decide⟩
  have hk2 : sentinelKey <:+: sentinelFalseSp := ⟨[], ": false".toList, by decide⟩
  refine ⟨?_, ?_, ?_, ?_⟩
  · intro h
    obtain ⟨pre, post, h1, h2, h3⟩ :=
      ReplaceFirst_spec sentinelFalse sentinelTrue content ((Contains_iff_occurs _ _).1 h)
    exact ⟨pre, post, h1, h2, by simp only [MarkAsExported, h, if_true]; exact h3⟩
  · intro h0 h
    obtain ⟨pre, post, h1, h2, h3⟩ :=
      ReplaceFirst_spec sentinelFalseSp sentinelTrueSp content ((Contains_iff_occurs _ _).1 h)
    refine ⟨pre, post, h1, h2, ?_⟩
    simp only [MarkAsExported, h0, h, if_true]
    simpa using h3
  · intro hkey hanch
    have h1 := not_Contains_of_key_absent content _ hk1 hkey
    have h2 := not_Contains_of_key_absent content _ hk2 hkey
    have h3 : isAnchor content = true := by
      obtain ⟨line, hl, ha⟩ := hanch
      have hin : line <:+: content := by
        have := infix_Join_of_mem ['\n'] _ _ hl
        rwa [Join_Split] at this
      simp only [isAnchor, Bool.or_eq_true, Contains_iff_occurs] at ha ⊢
      exact ha.imp (fun h => h.trans hin) (fun h => h.trans hin)
    obtain ⟨pre, anchor, post, e1, e2, e3, e4⟩ := insertFlag_spec _ hanch
    have hm : MarkAsExported content = Join ['\n'] (pre ++ anchor :: sentinelTrue :: post) := by
      simp only [MarkAsExported, h1, h2, h3, if_true]
      simp only [Bool.false_eq_true, if_false]
      rw [e4, Join_merge]
    refine ⟨pre, anchor, post, e1, e2, e3, hm, ?_⟩
    rw [hm]
    apply Split_Join _ _ (by simp)
    intro seg hseg
    have hsplit := sep_not_mem_Split '\n' content
    rw [e1] at hsplit
    rcases List.mem_append.1 hseg with h | h
    · exact hsplit seg (List.mem_append_left _ h)
    · rcases List.mem_cons.1 h with h | h
      · rw [h]; exact hsplit anchor (by simp)
      · rcases List.mem_cons.1 h with h | h
        · rw [h]; decide
        · exact hsplit seg (by simp [h])
  · intro hkey hno
    have h1 := not_Contains_of_key_absent content _ hk1 hkey
    have h2 := not_Contains_of_key_absent content _ hk2 hkey
    have h3 : isAnchor content = false := by
      cases h : isAnchor content with
      | false => rfl
      | true =>
        obtain ⟨seg, hseg, ha⟩ := isAnchor_Split content h
        rw [hno seg hseg] at ha
        exact absurd ha (by simp)
    simp [MarkAsExported, h1, h2, h3]

/-- Claim C12, witness: a file with the sentinel at false, and a file without
the sentinel whose first line is an anchor. -/
theorem MarkAsExported_by_cases_witness :
    (∃ pre post, "#id,name\njsonS3Exported:false\n1,alice\n".toList
        = pre ++ sentinelFalse ++ post ∧
      MarkAsExported "#id,name\njsonS3Exported:false\n1,alice\n".toList
        = pre ++ sentinelTrue ++ post) ∧
    (∃ pre anchor post, Split '\n' "seg.sfm\n#id,name\n1,alice\n".toList
        = pre ++ anchor :: post ∧
      Split '\n' (MarkAsExported "seg.sfm\n#id,name\n1,alice\n".toList)
        = pre ++ anchor :: sentinelTrue :: post) :=
  have h := MarkAsExported_by_cases "#id,name\njsonS3Exported:false\n1,alice\n".toList
  have h2 := MarkAsExported_by_cases "seg.sfm\n#id,name\n1,alice\n".toList
  ⟨by
    obtain ⟨pre, post, e1, -, e3⟩ := h.1 (by decide)
    exact ⟨pre, post, e1, e3⟩,
   by
    obtain ⟨pre, anchor, post, e1, -, -, -, e5⟩ :=
      h2.2.2.1 (by decide) ⟨"seg.sfm".toList, by decide, by decide⟩
    exact ⟨pre, anchor, post, e1, e5⟩⟩

/-- Claim C12 as stated fails: in a content that holds `jsonS3Exported: false`
first and `jsonS3Exported:false` on a later line, the first occurrence of the
sentinel with value false stays as it is and the later one is flipped. -/
theorem later_false_sentinel_flipped :
    "jsonS3Exported: false\njsonS3Exported:false\n".toList =
      [] ++ sentinelFalseSp ++ "\njsonS3Exported:false\n".toList ∧
    MarkAsExported "jsonS3Exported: false\njsonS3Exported:false\n".toList =
      "jsonS3Exported: false\njsonS3Exported:true\n".toList ∧
    MarkAsExported "jsonS3Exported: false\njsonS3Exported:false\n".toList ≠
      [] ++ sentinelTrueSp ++ "\njsonS3Exported:false\n".toList := by
  decide

/-! ### The keys of the uploads of any run -/

theorem attempts_append (a b : List Event) : attempts (a ++ b) = attempts a ++ attempts b := by
  simp [attempts, List.filterMap_append]

theorem keyedFrom_snoc (base : GoString) (datas : List FileData) (d : FileData) :
    keyedFrom base (datas ++ [d]) = keyedFrom base datas ++ [(keyFor base datas.length d, d)] := by
  simp [keyedFrom, List.enumFrom_append]

theorem finalizeBatch_attempts (env : Env) (config : Config) (base : GoString) (st : State)
    (c x : GoString) (hfs : st.fs st.jsonFileName = some (.text c))
    (hname : st.jsonFileName = x ++ jsonSuffix) :
    (finalizeBatch env config base st).1.batchCount = st.batchCount ∧
    ((attempts (finalizeBatch env config base st).1.events = attempts st.events ∧
        (finalizeBatch env config base st).2 ≠ none) ∨
      ∃ data, attempts (finalizeBatch env config base st).1.events =
        attempts st.events ++ [(keyFor base st.batchCount data, data)]) := by
  obtain ⟨hb, -, h | ⟨finalFile, key, data, h1, -, h3⟩⟩ :=
    finalizeBatch_spec env config base st c x hfs hname
  · refine ⟨hb, Or.inl ⟨?_, by rw [h.2.2.1]; simp⟩⟩
    rw [h.2.2.2, attempts_append]
    simp [attempts, Event.attempt]
  · refine ⟨hb, Or.inr ⟨data, ?_⟩⟩
    have hkey : key = keyFor base st.batchCount data := by
      rcases h3 with ⟨-, hk, hd, -⟩ | ⟨-, -, hk, z, -, -, hd⟩ <;> rw [hk, hd] <;> rfl
    rw [h1, attempts_append, attempts_append, ← hkey]
    have h4 : attempts (if config.Compression = true
        then [Event.compressed st.jsonFileName true] else []) = [] := by
      split <;> rfl
    rw [h4]
    simp [attempts, Event.attempt]

theorem processLines_attempts (env : Env) (config : Config) (base ts : GoString)
    (cols : List GoString) : ∀ (lines : List GoString) (st : State) (datas : List FileData),
    (∃ x, st.jsonFileName = x ++ jsonSuffix) →
    attempts st.events = keyedFrom base datas → datas.length = st.batchCount →
    (∃ x, (processLines env config base ts cols lines st).1.jsonFileName = x ++ jsonSuffix) ∧
    ∃ datas2, attempts (processLines env config base ts cols lines st).1.events =
        keyedFrom base datas2 ∧
      ((processLines env config base ts cols lines st).2 = none →
        datas2.length = (processLines env config base ts cols lines st).1.batchCount) := by
  intro lines
  induction lines with
  | nil => intro st datas hn ha hl; exact ⟨hn, datas, ha, fun _ => hl⟩
  | cons line rest ih =>
    intro st datas hn ha hl
    unfold processLines
    cases hconv : convertLine cols line with
    | none => exact ih st datas hn ha hl
    | some j =>
      simp only []
      obtain ⟨x, hx⟩ := hn
      have hn1 : (st.addRecord j).flush.jsonFileName = x ++ jsonSuffix := by
        show (st.addRecord j).jsonFileName = _
        rw [jsonFileName_addRecord, hx]
      split
      · obtain ⟨hb, hcase⟩ := finalizeBatch_attempts env config base (st.addRecord j).flush _ x
          (flush_fs _) hn1
        have hnm := jsonFileName_finalizeBatch env config base (st.addRecord j).flush
        rw [hn1] at hnm
        have hb' : (finalizeBatch env config base (st.addRecord j).flush).1.batchCount
            = st.batchCount := by
          rw [hb]
          show (st.addRecord j).batchCount = _
          exact batchCount_addRecord st j
        have hev : attempts (st.addRecord j).flush.events = keyedFrom base datas := by
          rw [events_flush, events_addRecord]; exact ha
        have hbc : (st.addRecord j).flush.batchCount = st.batchCount :=
          batchCount_addRecord st j
        rw [hev, hbc] at hcase
        rcases hfin : finalizeBatch env config base (st.addRecord j).flush with ⟨st2, err⟩
        rw [hfin] at hcase hnm hb'
        simp only [] at hcase hnm hb'
        cases err with
        | some e =>
          simp only []
          refine ⟨⟨x, hnm⟩, ?_⟩
          rcases hcase with ⟨h1, -⟩ | ⟨data, h1⟩
          · exact ⟨datas, h1, by simp⟩
          · exact ⟨datas ++ [data], by rw [h1, keyedFrom_snoc, hl], by simp⟩
        | none =>
          simp only []
          rcases hcase with ⟨-, h1⟩ | ⟨data, h1⟩
          · exact absurd rfl h1
          · exact ih (st2.rotate config base ts) (datas ++ [data]) ⟨_, rfl⟩
              (by
                show attempts st2.events = _
                rw [h1, keyedFrom_snoc, hl])
              (by
                show _ = st2.batchCount + 1
                rw [hb']; simp [hl])
      · exact ih (st.addRecord j) datas ⟨x, by rw [jsonFileName_addRecord, hx]⟩
          (by rw [events_addRecord]; exact ha) (by rw [batchCount_addRecord]; exact hl)

theorem ConvertAndUpload_attempts (env : Env) (config : Config) (fs : FS)
    (sfmFile ts content : GoString) :
    ∃ datas, attempts (ConvertAndUpload env config fs sfmFile ts content).events =
      keyedFrom (baseFileNameOf sfmFile) datas := by
  unfold ConvertAndUpload
  cases hcols : readColumnNames content with
  | error e => exact ⟨[], rfl⟩
  | ok cols =>
    simp only []
    obtain ⟨⟨x, hx⟩, datas, ha, hl⟩ := processLines_attempts env config
      (baseFileNameOf sfmFile) ts cols (scannedLines content)
      (startState config fs sfmFile ts) [] ⟨_, rfl⟩ rfl rfl
    unfold scanLoop
    rcases hloop : processLines env config (baseFileNameOf sfmFile) ts cols
      (scannedLines content) (startState config fs sfmFile ts) with ⟨st, err⟩
    rw [hloop] at hx ha hl
    simp only [] at hx ha hl
    cases err with
    | some e => exact ⟨datas, ha⟩
    | none =>
      simp only []
      unfold finishRun
      split
      · exact ⟨datas, ha⟩
      · split
        · obtain ⟨-, hcase⟩ := finalizeBatch_attempts env config (baseFileNameOf sfmFile)
            st.flush _ x (flush_fs st) hx
          rw [events_flush, ha] at hcase
          rcases hcase with ⟨h1, -⟩ | ⟨data, h1⟩
          · exact ⟨datas, h1⟩
          · refine ⟨datas ++ [data], ?_⟩
            rw [h1, keyedFrom_snoc, hl rfl]
            rfl
        · exact ⟨datas, ha⟩

theorem keyedFrom_getElem? (base : GoString) (datas : List FileData) (i : Nat)
    (k : GoString) (d : FileData) (h : (keyedFrom base datas)[i]? = some (k, d)) :
    k = keyFor base i d := by
  unfold keyedFrom at h
  rw [List.getElem?_map, List.getElem?_enumFrom] at h
  cases hd : datas[i]? with
  | none => rw [hd] at h; simp at h
  | some d0 =>
    rw [hd] at h
    simp only [Option.map_some', Nat.zero_add, Option.some.injEq, Prod.mk.injEq] at h
    rw [← h.1, ← h.2]

theorem keyFor_eq (base : GoString) (i : Nat) (d : FileData) :
    keyFor base i d = base ++ "/batch-".toList ++ itoa i ++ ".json".toList ++
      (if d.isGzip then ".gz".toList else []) := by
  cases d <;> simp [keyFor, batchKey, FileData.isGzip, gzSuffix, jsonSuffix]

/-- Claim C13.  In every run of `ConvertAndUpload`, whether or not a call
fails, the upload at position `i` is made under the key of batch `i`:
`{baseFileName}/batch-{i}.json`, followed by `.gz` exactly when the data
uploaded is the gzip stream, where `baseFileName` is the base name of the path
of the SFM file without its extension.  The time stamp, the temporary directory,
the file system and the environment do not enter the key: two runs over the same
path give the same key to the uploads at the same position that are both
compressed or both not. -/
theorem upload_keys_deterministic (env env2 : Env) (config config2 : Config) (fs fs2 : FS)
    (sfmFile timeStamp timeStamp2 content content2 : GoString) :
    (∀ (i : Nat) (k : GoString) (d : FileData),
      (attempts (ConvertAndUpload env config fs sfmFile timeStamp content).events)[i]?
        = some (k, d) →
      k = baseFileNameOf sfmFile ++ "/batch-".toList ++ itoa i ++ ".json".toList ++
        (if d.isGzip then ".gz".toList else [])) ∧
    baseFileNameOf sfmFile =
      TrimSuffix (filepathBase sfmFile) (filepathExt (filepathBase sfmFile)) ∧
    (∀ (i : Nat) (k : GoString) (d : FileData) (k2 : GoString) (d2 : FileData),
      (attempts (ConvertAndUpload env config fs sfmFile timeStamp content).events)[i]?
        = some (k, d) →
      (attempts (ConvertAndUpload env2 config2 fs2 sfmFile timeStamp2 content2).events)[i]?
        = some (k2, d2) →
      d.isGzip = d2.isGzip → k = k2) := by
  have key : ∀ (e : Env) (c : Config) (f : FS) (t ct : GoString) i k d,
      (attempts (ConvertAndUpload e c f sfmFile t ct).events)[i]? = some (k, d) →
      k = baseFileNameOf sfmFile ++ "/batch-".toList ++ itoa i ++ ".json".toList ++
        (if d.isGzip then ".gz".toList else []) := by
    intro e c f t ct i k d h
    obtain ⟨datas, hd⟩ := ConvertAndUpload_attempts e c f sfmFile t ct
    rw [hd] at h
    rw [keyedFrom_getElem? _ _ _ _ _ h, keyFor_eq]
  refine ⟨key env config fs timeStamp content, rfl, ?_⟩
  intro i k d k2 d2 h1 h2 hgz
  rw [key env config fs timeStamp content i k d h1,
    key env2 config2 fs2 timeStamp2 content2 i k2 d2 h2, hgz]

/-- Claim C13, witness: two runs over `data/seg.one.sfm`, at different times
and with different temporary directories and batch sizes; the first upload of
each is made under `seg.one/batch-0.json`. -/
theorem upload_keys_deterministic_witness :
    (attempts (ConvertAndUpload (Env.reliable 500) ⟨1, true, "/tmp/a".toList⟩ FS.empty
        "data/seg.one.sfm".toList "T1".toList "#id,n\n1,a\n2,b\n".toList).events)[0]?
      = some ("seg.one/batch-0.json".toList,
          .text "\x7b\"id\":\"1\",\"n\":\"a\"\x7d\n".toList) ∧
    (attempts (ConvertAndUpload (Env.reliable 90) ⟨5, false, "/var/b".toList⟩ FS.empty
        "data/seg.one.sfm".toList "T2".toList "#id,n\n1,a\n2,b\n".toList).events)[0]?
      = some ("seg.one/batch-0.json".toList,
          .text "\x7b\"id\":\"1\",\"n\":\"a\"\x7d\n\x7b\"id\":\"2\",\"n\":\"b\"\x7d\n".toList) ∧
    "seg.one/batch-0.json".toList = "seg.one/batch-0.json".toList :=
  have h := (upload_keys_deterministic (Env.reliable 500) (Env.reliable 90)
    ⟨1, true, "/tmp/a".toList⟩ ⟨5, false, "/var/b".toList⟩ FS.empty FS.empty
    "data/seg.one.sfm".toList "T1".toList "T2".toList "#id,n\n1,a\n2,b\n".toList
    "#id,n\n1,a\n2,b\n".toList).2.2 0
    "seg.one/batch-0.json".toList (.text "\x7b\"id\":\"1\",\"n\":\"a\"\x7d\n".toList)
    "seg.one/batch-0.json".toList
    (.text "\x7b\"id\":\"1\",\"n\":\"a\"\x7d\n\x7b\"id\":\"2\",\"n\":\"b\"\x7d\n".toList)
    (by decide) (by decide) (by decide)
  ⟨by decide, by decide, h⟩

/-! ### The helper `ParseSfmLine` and the transform of `ConvertAndUpload` -/

theorem foldl_enumFrom_eq_zip (fields : List GoString) :
    ∀ (cols : List GoString) (n : Nat) (acc : GoMap), n + cols.length ≤ fields.length →
    (cols.enumFrom n).foldl
        (fun result p => mapSet result p.2 (TrimSpace (fields.getD p.1 []))) acc =
      (cols.zip (fields.drop n)).foldl (fun m kv => mapSet m kv.1 (TrimSpace kv.2)) acc := by
  intro cols
  induction cols with
  | nil => intro n acc _; simp
  | cons c cs ih =>
    intro n acc h
    simp only [List.length_cons] at h
    have hn : n < fields.length := by omega
    rw [List.enumFrom_cons, List.foldl_cons, List.drop_eq_getElem_cons hn, List.zip_cons_cons,
      List.foldl_cons, ih (n + 1) _ (by omega)]
    simp [List.getD_eq_getElem?_getD, List.getElem?_eq_getElem hn]

/-- Claim C15.  On every line and every list of column names, `ConvertAndUpload`
writes a record for the line exactly when `ParseSfmLine` returns a map, and
what it writes is the JSON object of that map, which is the map
`ConvertAndUpload` builds (every column name with the trimmed field at its
position).  `ParseSfmLine` returns `(nil, nil)` exactly for the lines that start
with `#` or are blank, and an error exactly for the other lines whose field
count is not the number of columns; these two kinds are the lines
`ConvertAndUpload` skips. -/
theorem ParseSfmLine_agrees_with_convertLine (line : GoString) (cols : List GoString) :
    (∀ out, convertLine cols line = some out ↔
      ∃ m, ParseSfmLine line cols = .record m ∧ out = Marshal m ++ ['\n']) ∧
    (∀ m, ParseSfmLine line cols = .record m ↔
      (isSkipped line = false ∧ (Split ',' line).length = cols.length ∧
        m = buildRecord cols (Split ',' line))) ∧
    (ParseSfmLine line cols = .skipped ↔
      (HasPrefix line ['#'] = true ∨ (TrimSpace line).isEmpty = true)) ∧
    ((∃ a b, ParseSfmLine line cols = .mismatch a b) ↔
      (¬ (HasPrefix line ['#'] = true ∨ (TrimSpace line).isEmpty = true) ∧
        (Split ',' line).length ≠ cols.length)) ∧
    (convertLine cols line = none ↔
      (ParseSfmLine line cols = .skipped ∨ ∃ a b, ParseSfmLine line cols = .mismatch a b)) := by
  have hrec : (Split ',' line).length = cols.length →
      (cols.enumFrom 0).foldl
        (fun result p => mapSet result p.2 (TrimSpace ((Split ',' line).getD p.1 []))) [] =
      buildRecord cols (Split ',' line) := by
    intro h
    rw [foldl_enumFrom_eq_zip _ cols 0 [] (by omega)]
    rfl
  by_cases hskip : (HasPrefix line ['#'] || (TrimSpace line).isEmpty) = true
  · have h1 : ParseSfmLine line cols = .skipped := by
      unfold ParseSfmLine
      rw [if_pos hskip]
    have h3 : isSkipped line = true := hskip
    have h2 : convertLine cols line = none := by
      unfold convertLine
      rw [if_pos h3]
    have h4 : HasPrefix line ['#'] = true ∨ (TrimSpace line).isEmpty = true :=
      Bool.or_eq_true _ _ ▸ hskip
    rw [h1, h2]
    refine ⟨?_, ?_, ⟨fun _ => h4, fun _ => rfl⟩, ?_, ⟨fun _ => Or.inl rfl, fun _ => rfl⟩⟩
    · intro out
      constructor
      · intro h; cases h
      · rintro ⟨m, hm, -⟩; cases hm
    · intro m
      constructor
      · intro h; cases h
      · rintro ⟨h, -⟩
        rw [h3] at h
        cases h
    · constructor
      · rintro ⟨a, b, h⟩; cases h
      · intro h; exact absurd h4 h.1
  · have h3 : isSkipped line = false := by
      cases h : isSkipped line with
      | false => rfl
      | true => exact absurd h hskip
    have h4 : ¬ (HasPrefix line ['#'] = true ∨ (TrimSpace line).isEmpty = true) := by
      intro h
      exact hskip ((Bool.or_eq_true _ _).symm ▸ h)
    by_cases hlen : (Split ',' line).length = cols.length
    · have h1 : ParseSfmLine line cols = .record (buildRecord cols (Split ',' line)) := by
        unfold ParseSfmLine
        rw [if_neg hskip]
        simp only []
        rw [if_neg (fun h => h hlen), hrec hlen]
      have h2 : convertLine cols line =
          some (Marshal (buildRecord cols (Split ',' line)) ++ ['\n']) := by
        unfold convertLine
        rw [if_neg (by rw [h3]; simp)]
        simp only []
        rw [if_neg (fun h => h hlen)]
      rw [h1, h2]
      refine ⟨?_, ?_, ?_, ?_, ?_⟩
      · intro out
        constructor
        · intro h
          exact ⟨_, rfl, (Option.some.inj h).symm⟩
        · rintro ⟨m, hm, ho⟩
          cases hm
          rw [ho]
      · intro m
        constructor
        · intro h
          cases h
          exact ⟨h3, hlen, rfl⟩
        · rintro ⟨-, -, h⟩
          rw [h]
      · constructor
        · intro h; cases h
        · intro h; exact absurd h h4
      · constructor
        · rintro ⟨a, b, h⟩; cases h
        · intro h; exact absurd hlen h.2
      · constructor
        · intro h; cases h
        · rintro (h | ⟨a, b, h⟩) <;> cases h
    · have h1 : ParseSfmLine line cols = .mismatch cols.length (Split ',' line).length := by
        unfold ParseSfmLine
        rw [if_neg hskip]
        simp only []
        rw [if_pos hlen]
      have h2 : convertLine cols line = none := by
        unfold convertLine
        rw [if_neg (by rw [h3]; simp)]
        simp only []
        rw [if_pos hlen]
      rw [h1, h2]
      refine ⟨?_, ?_, ?_, ⟨fun _ => ⟨h4, hlen⟩, fun _ => ⟨_, _, rfl⟩⟩,
        ⟨fun _ => Or.inr ⟨_, _, rfl⟩, fun _ => rfl⟩⟩
      · intro out
        constructor
        · intro h; cases h
        · rintro ⟨m, hm, -⟩; cases hm
      · intro m
        constructor
        · intro h; cases h
        · rintro ⟨-, h, -⟩; exact absurd h hlen
      · constructor
        · intro h; cases h
        · intro h; exact absurd h h4

/-- Claim C15, witness: a row, a comment and a row with one field too many. -/
theorem ParseSfmLine_agrees_with_convertLine_witness :
    ParseSfmLine " 1 , alice".toList ["id".toList, "name".toList] =
      .record [("id".toList, "1".toList), ("name".toList, "alice".toList)] ∧
    convertLine ["id".toList, "name".toList] " 1 , alice".toList =
      some (Marshal [("id".toList, "1".toList), ("name".toList, "alice".toList)] ++ ['\n']) ∧
    ParseSfmLine "# note".toList ["id".toList, "name".toList] = .skipped ∧
    ParseSfmLine "1,2,3".toList ["id".toList, "name".toList] = .mismatch 2 3 ∧
    convertLine ["id".toList, "name".toList] "1,2,3".toList = none :=
  ⟨by decide,
   ((ParseSfmLine_agrees_with_convertLine " 1 , alice".toList
      ["id".toList, "name".toList]).1 _).2 ⟨_, by decide, rfl⟩,
   by decide, by decide,
   (ParseSfmLine_agrees_with_convertLine "1,2,3".toList ["id".toList, "name".toList]).2.2.2.2.2
     (Or.inr ⟨2, 3, by decide⟩)⟩

/-! ### The end-to-end example -/

end Exporter
